import Mathlib

/-!
Verification development for the skyhook agent
(`src/agent/skyhook-agent/src/skyhook_agent/`).

The Python code is shallowly embedded: Python dicts become association
lists with first-match lookup, the filesystem becomes an explicit state
value threaded through the functions, subprocess execution becomes an
oracle `runner : List String → ... → Int` supplying the child's exit
code, and `datetime.now()` / `time.time()` become explicit `now : String`
parameters.  Log files written by `tee` live under the log directory
tree, disjoint from the flag/history state the theorems are about, and
are not tracked.
-/

namespace Skyhook

/-- Python `dict` lookup: first binding wins (association lists here carry
at most one binding per key when they model a real Python dict). -/
def dictGet (d : List (String × String)) (k : String) : Option String :=
  (d.find? (fun p => p.1 = k)).map (fun p => p.2)

/-- Python `d[k] = v`: replace the binding if the key is present,
otherwise append it (insertion order at the end, like CPython). -/
def dictInsert (d : List (String × String)) (k v : String) : List (String × String) :=
  if d.any (fun p => p.1 = k) then
    d.map (fun p => if p.1 = k then (k, v) else p)
  else
    d ++ [(k, v)]

/-- Python `d.update(e)`: insert every binding of `e` into `d`, in order. -/
def dictUpdate (d e : List (String × String)) : List (String × String) :=
  e.foldl (fun acc p => dictInsert acc p.1 p.2) d

theorem dictGet_nil (k' : String) : dictGet [] k' = none := rfl

theorem dictGet_cons (p : String × String) (d : List (String × String)) (k' : String) :
    dictGet (p :: d) k' = if p.1 = k' then some p.2 else dictGet d k' := by
  unfold dictGet
  rw [List.find?_cons]
  by_cases h : p.1 = k' <;> simp [h]

theorem dictGet_append_single_other (d : List (String × String)) (k v k' : String)
    (h : ¬ k' = k) : dictGet (d ++ [(k, v)]) k' = dictGet d k' := by
  induction d with
  | nil =>
    rw [List.nil_append, dictGet_cons, dictGet_nil,
      if_neg (fun hh : (k, v).1 = k' => h (Eq.symm hh))]
  | cons p rest ih =>
    rw [List.cons_append, dictGet_cons, dictGet_cons]
    by_cases hp : p.1 = k' <;> simp [hp, ih]

theorem dictGet_append_single_self (d : List (String × String)) (k v : String)
    (h : d.any (fun p => p.1 = k) = false) : dictGet (d ++ [(k, v)]) k = some v := by
  induction d with
  | nil => rw [List.nil_append, dictGet_cons, if_pos rfl]
  | cons p rest ih =>
    simp only [List.any_cons, Bool.or_eq_false_iff] at h
    rw [List.cons_append, dictGet_cons,
      if_neg (by simpa using h.1), ih h.2]

theorem dictGet_map_replace_other (d : List (String × String)) (k v k' : String)
    (h : ¬ k' = k) :
    dictGet (d.map (fun p => if p.1 = k then (k, v) else p)) k' = dictGet d k' := by
  induction d with
  | nil => rfl
  | cons p rest ih =>
    simp only [List.map_cons]
    by_cases hp : p.1 = k
    · rw [if_pos hp, dictGet_cons, dictGet_cons,
        if_neg (fun hh : (k, v).1 = k' => h (Eq.symm hh)),
        if_neg (fun hh : p.1 = k' => h (Eq.symm (hp ▸ hh : k = k'))), ih]
    · rw [if_neg hp, dictGet_cons, dictGet_cons]
      by_cases h3 : p.1 = k' <;> simp [h3, ih]

theorem dictGet_map_replace_self (d : List (String × String)) (k v : String)
    (h : d.any (fun p => p.1 = k) = true) :
    dictGet (d.map (fun p => if p.1 = k then (k, v) else p)) k = some v := by
  induction d with
  | nil => exact absurd h (by simp)
  | cons p rest ih =>
    simp only [List.map_cons]
    by_cases hp : p.1 = k
    · rw [if_pos hp, dictGet_cons, if_pos rfl]
    · rw [if_neg hp, dictGet_cons, if_neg hp]
      simp only [List.any_cons, Bool.or_eq_true] at h
      rcases h with h | h
      · exact absurd (by simpa using h) hp
      · exact ih h

theorem dictGet_not_found (d : List (String × String)) (k : String)
    (h : d.any (fun p => p.1 = k) = false) : dictGet d k = none := by
  unfold dictGet
  rw [List.find?_eq_none.mpr]
  · rfl
  · intro p hp hpk
    have : d.any (fun p => p.1 = k) = true :=
      List.any_eq_true.mpr ⟨p, hp, hpk⟩
    rw [this] at h
    exact Bool.noConfusion h

theorem dictGet_dictInsert (d : List (String × String)) (k v k' : String) :
    dictGet (dictInsert d k v) k' = if k' = k then some v else dictGet d k' := by
  unfold dictInsert
  by_cases hmem : d.any (fun p => p.1 = k)
  · rw [if_pos hmem]
    by_cases hk : k' = k
    · subst hk
      rw [if_pos rfl, dictGet_map_replace_self d k' v hmem]
    · rw [if_neg hk, dictGet_map_replace_other d k v k' hk]
  · rw [if_neg hmem]
    by_cases hk : k' = k
    · subst hk
      rw [if_pos rfl, dictGet_append_single_self d k' v (Bool.eq_false_iff.mpr hmem)]
    · rw [if_neg hk, dictGet_append_single_other d k v k' hk]

/-- Keys of an association list. -/
def dictKeys (d : List (String × String)) : List String := d.map Prod.fst

theorem dictGet_dictUpdate (d e : List (String × String)) (k : String)
    (he : (dictKeys e).Nodup) :
    dictGet (dictUpdate d e) k =
      (match dictGet e k with
       | some v => some v
       | none => dictGet d k) := by
  induction e generalizing d with
  | nil => simp [dictUpdate, dictGet_nil]
  | cons p rest ih =>
    have hn : (dictKeys rest).Nodup := (List.nodup_cons.mp he).2
    have hnotin : p.1 ∉ dictKeys rest := (List.nodup_cons.mp he).1
    show dictGet (dictUpdate (dictInsert d p.1 p.2) rest) k = _
    rw [ih _ hn, dictGet_cons]
    by_cases hk : p.1 = k
    · have hrest : dictGet rest k = none := by
        apply dictGet_not_found
        rw [Bool.eq_false_iff]
        intro hany
        rcases List.any_eq_true.mp hany with ⟨q, hq, hqk⟩
        have : q.1 = k := by simpa using hqk
        exact hnotin (hk ▸ this ▸ List.mem_map_of_mem Prod.fst hq)
      rw [hrest, if_pos hk]
      show dictGet (dictInsert d p.1 p.2) k = some p.2
      rw [dictGet_dictInsert, if_pos (Eq.symm hk)]
    · rw [if_neg hk, dictGet_dictInsert, if_neg (fun h => hk (Eq.symm h))]

/-! ## Filesystem model

Files are an association list `path → contents`; directories created with
`os.makedirs` are tracked as a plain list of paths. -/

structure FS where
  files : List (String × String)
  dirs : List String
deriving DecidableEq, Repr

def fsEmpty : FS := ⟨[], []⟩

/-- `open(path, "w").write(contents)`. -/
def fsWrite (fs : FS) (path contents : String) : FS :=
  { fs with files := dictInsert fs.files path contents }

/-- `os.path.exists` restricted to files (the paths the claims are about
are always files). -/
def fsExists (fs : FS) (path : String) : Bool :=
  fs.files.any (fun p => p.1 = path)

def fsRead (fs : FS) (path : String) : Option String :=
  dictGet fs.files path

/-- `os.remove`. -/
def fsRemove (fs : FS) (path : String) : FS :=
  { fs with files := fs.files.filter (fun p => ¬ p.1 = path) }

/-- `os.rename src dst`: the destination receives the source's bytes, the
source disappears. -/
def fsRename (fs : FS) (src dst : String) : FS :=
  match fsRead fs src with
  | some contents => fsWrite (fsRemove fs src) dst contents
  | none => fs

/-- `os.makedirs(path, exist_ok=True)`. -/
def fsMkdir (fs : FS) (path : String) : FS :=
  if fs.dirs.contains path then fs else { fs with dirs := fs.dirs ++ [path] }

theorem fsExists_eq_isSome (fs : FS) (q : String) :
    fsExists fs q = (fsRead fs q).isSome := by
  unfold fsExists fsRead dictGet
  induction fs.files with
  | nil => rfl
  | cons p rest ih =>
    by_cases hp : p.1 = q
    · simp [List.find?_cons, hp]
    · simp only [List.any_cons, List.find?_cons]
      simp [hp, ih]

theorem fsExists_fsWrite (fs : FS) (path contents q : String) :
    fsExists (fsWrite fs path contents) q = (q = path || fsExists fs q) := by
  rw [fsExists_eq_isSome, fsExists_eq_isSome]
  show (dictGet (dictInsert fs.files path contents) q).isSome = _
  rw [dictGet_dictInsert]
  by_cases hq : q = path <;> simp [hq, fsRead]

theorem fsRead_fsWrite (fs : FS) (path contents q : String) :
    fsRead (fsWrite fs path contents) q =
      if q = path then some contents else fsRead fs q := by
  show dictGet (dictInsert fs.files path contents) q = _
  rw [dictGet_dictInsert]
  rfl

theorem fsRead_fsRemove (fs : FS) (path q : String) :
    fsRead (fsRemove fs path) q = if q = path then none else fsRead fs q := by
  show dictGet (fs.files.filter fun p => ¬ p.1 = path) q = _
  by_cases hq : q = path
  · subst hq
    rw [if_pos rfl]
    apply dictGet_not_found
    rw [Bool.eq_false_iff]
    intro hany
    rcases List.any_eq_true.mp hany with ⟨p, hp, hpk⟩
    have := List.of_mem_filter hp
    simp only [decide_not, Bool.not_eq_true', decide_eq_false_iff_not] at this
    exact this (by simpa using hpk)
  · rw [if_neg hq]
    show _ = dictGet fs.files q
    induction fs.files with
    | nil => rfl
    | cons p rest ih =>
      by_cases hp : p.1 = path
      · rw [List.filter_cons_of_neg (by simpa using hp), ih, dictGet_cons,
          if_neg (fun hh : p.1 = q => hq (hh.symm.trans hp))]
      · rw [List.filter_cons_of_pos (by simpa using hp), dictGet_cons, dictGet_cons, ih]

theorem fsExists_fsRemove (fs : FS) (path q : String) :
    fsExists (fsRemove fs path) q = (decide (¬ q = path) && fsExists fs q) := by
  rw [fsExists_eq_isSome, fsExists_eq_isSome, fsRead_fsRemove]
  by_cases hq : q = path <;> simp [hq]

theorem fsExists_fsMkdir (fs : FS) (d q : String) :
    fsExists (fsMkdir fs d) q = fsExists fs q := by
  unfold fsMkdir fsExists
  by_cases h : d ∈ fs.dirs <;> simp [h]

theorem fsRead_fsMkdir (fs : FS) (d q : String) :
    fsRead (fsMkdir fs d) q = fsRead fs q := by
  unfold fsMkdir fsRead
  by_cases h : d ∈ fs.dirs <;> simp [h]

/-! ## Core data model (`step.py`, `enums`) -/

/-- `Idempotence` from `step.py`. -/
inductive Idempotence where
  | Auto
  | Disabled
deriving DecidableEq, Repr

/-- `Mode` from `step.py`. -/
inductive Mode where
  | UNINSTALL
  | UNINSTALL_CHECK
  | UPGRADE
  | UPGRADE_CHECK
  | APPLY
  | APPLY_CHECK
  | CONFIG
  | CONFIG_CHECK
  | INTERRUPT
  | POST_INTERRUPT
  | POST_INTERRUPT_CHECK
deriving DecidableEq, Repr

/-- `str(mode)` — the enum's string value. -/
def Mode.str : Mode → String
  | .UNINSTALL => "uninstall"
  | .UNINSTALL_CHECK => "uninstall-check"
  | .UPGRADE => "upgrade"
  | .UPGRADE_CHECK => "upgrade-check"
  | .APPLY => "apply"
  | .APPLY_CHECK => "apply-check"
  | .CONFIG => "config"
  | .CONFIG_CHECK => "config-check"
  | .INTERRUPT => "interrupt"
  | .POST_INTERRUPT => "post-interrupt"
  | .POST_INTERRUPT_CHECK => "post-interrupt-check"

/-- The keys of `CHECK_TO_APPLY` (the inverse of `APPLY_TO_CHECK`). -/
def checkToApplyKeys : List Mode :=
  [Mode.UNINSTALL_CHECK, Mode.UPGRADE_CHECK, Mode.APPLY_CHECK,
   Mode.CONFIG_CHECK, Mode.POST_INTERRUPT_CHECK]

/-- `Step` / `UpgradeStep` (`step.py`): the subclass becomes the
`is_upgrade_step` discriminant. -/
structure Step where
  name : String
  path : String
  arguments : List String
  on_host : Bool
  returncodes : List Int
  env : List (String × String)
  idempotence : Idempotence
  requires_interrupt : Bool
  is_upgrade_step : Bool
deriving DecidableEq, Repr

/-- A plain `Step(path)` with the constructor's defaults. -/
def mkStep (path : String) : Step :=
  { name := path, path := path, arguments := [], on_host := true
    returncodes := [0], env := [], idempotence := Idempotence.Auto
    requires_interrupt := false, is_upgrade_step := false }

/-- The environment-derived configuration of `_get_env_config`. -/
structure EnvConfig where
  resource_id : String
  data_dir : String
  root_dir : String
  log_dir : String
deriving DecidableEq, Repr

/-- The defaults of `_get_env_config` when no variable is set. -/
def defaultEnvConfig : EnvConfig :=
  { resource_id := "", data_dir := "/skyhook-package",
    root_dir := "/etc/skyhook", log_dir := "/var/log/skyhook" }

/-- `config_data` restricted to the package identity used by the core
(`_get_package_information`). -/
structure ConfigData where
  package_name : String
  package_version : String
deriving DecidableEq, Repr

def get_host_path_for_steps (copy_dir : String) : String :=
  copy_dir ++ "/skyhook_dir"

def get_skyhook_directory (ec : EnvConfig) (root_mount : String) : String :=
  root_mount ++ ec.root_dir

def get_flag_dir (ec : EnvConfig) (root_mount : String) : String :=
  get_skyhook_directory ec root_mount ++ "/flags"

def get_history_dir (ec : EnvConfig) (root_mount : String) : String :=
  get_skyhook_directory ec root_mount ++ "/history"

/-! ## Character-level helpers

`Char`-level facts, and char-list implementations of the Python string
operations the agent uses (`str.startswith`, `str.split`), written on
`List Char` so that they evaluate on concrete inputs. -/

theorem charToNat_lt (c : Char) : c.toNat < 1114112 := by
  show c.val.toNat < 1114112
  have := c.valid
  unfold UInt32.isValidChar Nat.isValidChar at this
  rcases this with h | h
  · omega
  · omega

theorem charToNat_inj (c d : Char) (h : c.toNat = d.toNat) : c = d := by
  apply Char.eq_of_val_eq
  exact UInt32.eq_of_toBitVec_eq (by
    simp [Char.toNat, UInt32.toNat] at h
    exact BitVec.toNat_injective h)

theorem charToNat_ofNat (n : Nat) (h : n.isValidChar) : (Char.ofNat n).toNat = n := by
  unfold Char.ofNat
  rw [dif_pos h]
  rfl

theorem charToNat_ofNat_small (n : Nat) (h : n < 55296) : (Char.ofNat n).toNat = n :=
  charToNat_ofNat n (Or.inl h)

/-- Python `s.startswith(pre)` on char lists. -/
def charsStartsWith : List Char → List Char → Bool
  | _, [] => true
  | [], _ :: _ => false
  | c :: cs, p :: ps => c = p && charsStartsWith cs ps

/-- The chars before the first occurrence of `sep` (all of them if `sep`
never occurs). -/
def takeUntilSep (sep : List Char) : List Char → List Char
  | [] => []
  | c :: cs => if charsStartsWith (c :: cs) sep then [] else c :: takeUntilSep sep cs

/-- Decimal digit chars of `n`, most significant first (the value of
Python `str(n)` for `n ≥ 0`), via an explicit fuel so it evaluates. -/
def natReprAux : Nat → Nat → List Char
  | 0, _ => []
  | fuel + 1, n =>
    if n < 10 then [Char.ofNat (48 + n)]
    else natReprAux fuel (n / 10) ++ [Char.ofNat (48 + n % 10)]

def natReprChars (n : Nat) : List Char := natReprAux (n + 1) n

def natRepr (n : Nat) : String := (natReprChars n).asString

/-- Python `str(i)` for an int. -/
def intReprChars : Int → List Char
  | Int.ofNat n => natReprChars n
  | Int.negSucc n => '-' :: natReprChars (n + 1)

/-! ## Python `repr` of argument lists and return-code lists

`make_flag_path` computes `f"{step.arguments}_{step.returncodes}"`, which
is Python `str` of a `list[str]` and of a `list[int]`.  The encoders
below model CPython's `repr`.  `pyPrintable` is exact on ASCII; CPython
additionally hex-escapes some non-ASCII code points (by Unicode
category), which this model keeps verbatim — the choice changes only
which escaped spelling those characters take, and no claim depends on
it. -/

def pyPrintable (c : Char) : Bool := 32 ≤ c.toNat && c.toNat ≠ 127

/-- Lowercase hex digit, `n < 16`. -/
def hexDigitChar (n : Nat) : Char :=
  if n < 10 then Char.ofNat (48 + n) else Char.ofNat (87 + n)

/-- CPython quote choice: `'` unless the string contains `'` and no `"`. -/
def pyQuote (s : List Char) : Char :=
  if s.contains '\'' && ! s.contains '\"' then '\"' else '\''

def pyEscapeChar (q c : Char) : List Char :=
  if c = '\\' then ['\\', '\\']
  else if c = q then ['\\', q]
  else if c = '\n' then ['\\', 'n']
  else if c = '\r' then ['\\', 'r']
  else if c = '\t' then ['\\', 't']
  else if pyPrintable c then [c]
  else ['\\', 'x', hexDigitChar (c.toNat / 16), hexDigitChar (c.toNat % 16)]

/-- `repr` of one Python string. -/
def pyReprStrChars (s : String) : List Char :=
  let q := pyQuote s.data
  q :: s.data.flatMap (pyEscapeChar q) ++ [q]

/-- `", ".join`-style interspersion used by `repr` of a list. -/
def commaSep : List (List Char) → List Char
  | [] => []
  | [x] => x
  | x :: y :: xs => x ++ ',' :: ' ' :: commaSep (y :: xs)

/-- `str(l)` for `l : list[str]`. -/
def pyReprStrList (l : List String) : List Char :=
  '[' :: commaSep (l.map pyReprStrChars) ++ [']']

/-- `str(l)` for `l : list[int]`. -/
def pyReprIntList (l : List Int) : List Char :=
  '[' :: commaSep (l.map intReprChars) ++ [']']

/-- `f"{step.arguments}_{step.returncodes}"`. -/
def argsRcsRepr (args : List String) (rcs : List Int) : List Char :=
  pyReprStrList args ++ '_' :: pyReprIntList rcs

/-! ## `bytes(s, "utf-8")` and `base64.b64encode` -/

/-- UTF-8 bytes of one code point. -/
def utf8Char (n : Nat) : List Nat :=
  if n < 128 then [n]
  else if n < 2048 then [192 + n / 64, 128 + n % 64]
  else if n < 65536 then [224 + n / 4096, 128 + n / 64 % 64, 128 + n % 64]
  else [240 + n / 262144, 128 + n / 4096 % 64, 128 + n / 64 % 64, 128 + n % 64]

def utf8Encode (cs : List Char) : List Nat := cs.flatMap (fun c => utf8Char c.toNat)

def b64Alphabet : List Char :=
  "ABCDEFGHIJKLMNOPQRSTUVWXYZabcdefghijklmnopqrstuvwxyz0123456789+/".data

def b64Char (n : Nat) : Char := b64Alphabet.getD n 'A'

/-- `base64.b64encode` over byte values, standard alphabet and `=`
padding. -/
def b64EncodeBytes : List Nat → List Char
  | [] => []
  | [a] => [b64Char (a / 4), b64Char (a % 4 * 16), '=', '=']
  | [a, b] => [b64Char (a / 4), b64Char (a % 4 * 16 + b / 16), b64Char (b % 16 * 4), '=']
  | a :: b :: c :: rest =>
    b64Char (a / 4) :: b64Char (a % 4 * 16 + b / 16) ::
      b64Char (b % 16 * 4 + c / 64) :: b64Char (c % 64) :: b64EncodeBytes rest

/-! ## Flag paths (`controller.py`, `make_flag_path`, `set_flag`) -/

/-- The base64 marker appended to the step path. -/
def flagMarker (args : List String) (rcs : List Int) : String :=
  (b64EncodeBytes (utf8Encode (argsRcsRepr args rcs))).asString

/-- `make_flag_path`. -/
def make_flag_path (step : Step) (cfg : ConfigData) (ec : EnvConfig)
    (root_mount : String) : String :=
  get_flag_dir ec root_mount ++ "/" ++ cfg.package_name ++ "/" ++
    cfg.package_version ++ "/" ++ step.path ++ "_" ++
    flagMarker step.arguments step.returncodes

/-- Python `s.split(sep)` for a one-char separator, on char lists. -/
def splitOnChar (sep : Char) : List Char → List (List Char)
  | [] => [[]]
  | c :: cs =>
    let r := splitOnChar sep cs
    if c = sep then [] :: r
    else (c :: r.headD []) :: r.tail

/-- `os.path.dirname`: everything before the last `/` (for the nested
paths used here; the root-parent corner of `os.path.dirname` does not
arise). -/
def pathDirname (s : String) : String :=
  ((splitOnChar '/' s.data).dropLast.intersperse ['/']).flatten.asString

/-- `set_flag`: create the parent directory and write the message. -/
def set_flag (fs : FS) (flag_file : String) (msg : String) : FS :=
  fsWrite (fsMkdir fs (pathDirname flag_file)) flag_file msg

/-! ## Step runner (`controller.py`, `run_step`)

The subprocess layer (`_run`/`tee`) is abstracted by a
`runner : command → env → exit code` oracle; `time.sleep`, the log file
and `cleanup_old_logs` touch only the log tree and are not tracked. -/

/-- `arg.split("env:")[1]` for an `arg` that starts with `"env:"`: the
text between the first `"env:"` and the next occurrence (or the end). -/
def envVarName (arg : String) : String :=
  (takeUntilSep "env:".data (arg.data.drop 4)).asString

def envMissingMsg (step_path name : String) : String :=
  step_path ++ ": Expected environment variable did not exist: " ++ name

/-- The argument-resolution loop of `run_step`: arguments starting with
`"env:"` are replaced by the environment variable's value; a missing
variable leaves the argument in place and records an error message. -/
def resolveArguments (environ : List (String × String)) (step_path : String) :
    List String → List String × List String
  | [] => ([], [])
  | arg :: rest =>
    let r := resolveArguments environ step_path rest
    if charsStartsWith arg.data "env:".data then
      match dictGet environ (envVarName arg) with
      | some v => (v :: r.1, r.2)
      | none => (arg :: r.1, envMissingMsg step_path (envVarName arg) :: r.2)
    else (arg :: r.1, r.2)

/-- The `env:` references of `args` that are missing from `environ`. -/
def missingEnvVars (environ : List (String × String)) (args : List String) :
    List String :=
  args.filterMap (fun a =>
    if charsStartsWith a.data "env:".data && (dictGet environ (envVarName a)).isNone
    then some (envVarName a) else none)

/-- The observable outcome of `run_step`: the returned bool, whether the
command was executed, the printed error messages, and the resolved
argument list (`run_step` mutates `step.arguments` in place). -/
structure StepRunResult where
  failed : Bool
  executed : Bool
  errors : List String
  resolved_args : List String
deriving DecidableEq, Repr

/-- `run_step`. -/
def run_step (environ : List (String × String))
    (runner : List String → List (String × String) → Int)
    (copy_dir : String) (step : Step) : StepRunResult :=
  let step_path := get_host_path_for_steps copy_dir ++ "/" ++ step.path
  let r := resolveArguments environ step.path step.arguments
  if r.2 ≠ [] then
    { failed := true, executed := false, errors := r.2, resolved_args := r.1 }
  else
    let env := dictUpdate (dictUpdate [] step.env)
      [("STEP_ROOT", get_host_path_for_steps copy_dir), ("SKYHOOK_DIR", copy_dir)]
    let rc := runner (step_path :: r.1) env
    { failed := ! step.returncodes.contains rc, executed := true,
      errors := [], resolved_args := r.1 }

/-! ## Interrupts (`interrupts.py`) -/

/-- `Interrupt._type()`: the class name in snake case (a char kept if it
is ASCII lowercase or first, otherwise prefixed with `_` and lowered). -/
def pyTypeName (s : String) : String :=
  ((s.data.mapIdx (fun i c =>
      if ('a' ≤ c ∧ c ≤ 'z') ∨ i = 0 then [c.toLower] else ['_', c.toLower])).flatten).asString

/-- An inflated interrupt: its type tag and its command list. -/
structure Interrupt where
  type : String
  interrupt_cmd : List (List String)
deriving DecidableEq, Repr

def NodeRestart : Interrupt :=
  { type := pyTypeName "NodeRestart", interrupt_cmd := [["reboot"]] }

def ServiceRestart (services : List String) : Interrupt :=
  { type := pyTypeName "ServiceRestart"
    interrupt_cmd :=
      ["systemctl", "daemon-reload"] ::
        services.map (fun s => ["systemctl", "restart", s]) }

def RestartAllServices : Interrupt :=
  { type := pyTypeName "RestartAllServices"
    interrupt_cmd := [["service", "procps", "force-reload"]] }

def NoOp : Interrupt := { type := pyTypeName "NoOp", interrupt_cmd := [] }

def ScriptInterrupt : Interrupt :=
  { type := pyTypeName "ScriptInterrupt", interrupt_cmd := [] }

/-! ## Environment composer (`chroot_exec.py`, `_get_process_env`) -/

/-- `_get_process_env`: copy the container environment, overwrite with the
chroot environment, then inject the skyhook step variables. -/
def _get_process_env (container_env skyhook_env chroot_env : List (String × String)) :
    List (String × String) :=
  dictUpdate (dictUpdate container_env chroot_env) skyhook_env

/-- Python `str(b)` for a bool. -/
def pyBoolStr (b : Bool) : String := if b then "True" else "False"

/-- `"sep".join(l)` on strings. -/
def joinStrs (sep : String) : List String → String
  | [] => ""
  | [x] => x
  | x :: y :: xs => x ++ sep ++ joinStrs sep (y :: xs)

def charsEndsWith (s suffix : List Char) : Bool :=
  charsStartsWith s.reverse suffix.reverse

/-- `str(mode).endswith("-check")`. -/
def modeIsCheckStr (m : Mode) : Bool := charsEndsWith m.str.data "-check".data

/-! ## Flag idempotency check (`controller.py`, `check_flag_file`) -/

/-- `check_flag_file`: the file-existence check is evaluated against the
filesystem state. Returns `true` when the step is to be skipped. -/
def check_flag_file (step : Step) (fs : FS) (flag_file : String)
    (always_run_step : Bool) (mode : Mode) : Bool :=
  if fsExists fs flag_file then
    if always_run_step then false
    else if [Mode.CONFIG, Mode.UNINSTALL, Mode.UPGRADE].contains mode then false
    else if step.idempotence = Idempotence.Disabled then false
    else true
  else false

/-! ## History ledger (`controller.py`, `get_or_update_history`)

`json.load` / `json.dump` on the history file are abstracted by a
`parseHist` / `dumpHist` oracle pair: `parseHist` returns `none` exactly
when `json.load` raises `JSONDecodeError` on those bytes. -/

structure HistoryEntry where
  version : String
  time : String
deriving DecidableEq, Repr

/-- The history record `{"current-version": ..., "history": [...]}`,
newest history entry first. -/
structure HistoryData where
  current_version : String
  history : List HistoryEntry
deriving DecidableEq, Repr

/-- `get_or_update_history`.  Returns the new filesystem and the step
(whose `env` — and, for an upgrade step, `arguments` — the read branch
mutates in place in Python). -/
def get_or_update_history (parseHist : String → Option HistoryData)
    (dumpHist : HistoryData → String) (cfg : ConfigData) (ec : EnvConfig)
    (root_mount : String) (write : Bool) (step : Step) (mode : Option Mode)
    (now : String) (fs : FS) : FS × Step :=
  let history_dir := get_history_dir ec root_mount
  let fs := fsMkdir fs history_dir
  let history_file := history_dir ++ "/" ++ cfg.package_name ++ ".json"
  let loaded : FS × HistoryData :=
    if fsExists fs history_file then
      match parseHist ((fsRead fs history_file).getD "") with
      | some h => (fs, h)
      | none =>
        (fsRename fs history_file (history_file ++ ".backup"),
         { current_version := "", history := [] })
    else
      (fs, { current_version := "unknown", history := [] })
  let fs := loaded.1
  let history_data := loaded.2
  if write then
    let history_data :=
      if mode = some Mode.UNINSTALL_CHECK then
        { current_version := "uninstalled",
          history := { version := "uninstalled", time := now } :: history_data.history }
      else
        { current_version := cfg.package_version,
          history := { version := cfg.package_version, time := now } :: history_data.history }
    (fsWrite fs history_file (dumpHist history_data), step)
  else
    let step := { step with
      env := dictInsert (dictInsert step.env "CURRENT_VERSION" cfg.package_version)
        "PREVIOUS_VERSION" history_data.current_version }
    let step :=
      if step.is_upgrade_step then
        { step with arguments :=
            step.arguments ++ [history_data.current_version, cfg.package_version] }
      else step
    (fs, step)

/-! ## Check summarization (`controller.py`, `summarize_check_results`) -/

/-- `summarize_check_results`: returns the failure bool and the new
filesystem state. -/
def summarize_check_results (results : List Bool) (checkSteps : List Step)
    (step_selector : Mode) (ec : EnvConfig) (root_mount : String) (fs : FS) :
    Bool × FS :=
  let flag_dir := get_flag_dir ec root_mount
  if results.length ≠ checkSteps.length then (true, fs)
  else
    let table := joinStrs "\n"
      (List.zipWith (fun (s : Step) (r : Bool) => s.path ++ " " ++ pyBoolStr r)
        checkSteps results)
    let fs := fsWrite fs (flag_dir ++ "/check_results") table
    if results.any id then (true, fs)
    else (false, fsWrite fs (flag_dir ++ "/" ++ step_selector.str ++ "_ALL_CHECKED") "")

/-! ## Interrupt execution (`controller.py`, `do_interrupt`)

Modelled from the inflated `Interrupt` value on (`interrupts.inflate` is
the decoding layer upstream of the loop).  The `_run` subprocess layer is
a `runner : command → exit code` oracle, and `get_log_file`'s directory
creation touches only the untracked log tree. -/

def interrupt_flag_dir (ec : EnvConfig) (root_mount : String) : String :=
  get_skyhook_directory ec root_mount ++ "/interrupts/flags/" ++ ec.resource_id

/-- `_make_interrupt_flag`. -/
def make_interrupt_flag (interrupt_dir interrupt_id : String) : String :=
  interrupt_dir ++ "/" ++ interrupt_id ++ ".complete"

/-- One command execution observed during `do_interrupt`: the command's
index, the command, and the filesystem state at the moment `_run` was
invoked (the just-written flag included). -/
structure ExecEvent where
  idx : Nat
  cmd : List String
  fsAtExec : FS
deriving DecidableEq, Repr

/-- The `for i, cmd in enumerate(interrupt.interrupt_cmd)` loop of
`do_interrupt`. -/
def doInterruptCmds (runner : List String → Int) (tname : String)
    (interrupt_dir : String) (now : String) :
    Nat → List (List String) → FS → Bool × FS × List ExecEvent
  | _, [], fs => (false, fs, [])
  | i, cmd :: rest, fs =>
    let interrupt_flag := make_interrupt_flag interrupt_dir (tname ++ "_" ++ natRepr i)
    if fsExists fs interrupt_flag then
      doInterruptCmds runner tname interrupt_dir now (i + 1) rest fs
    else
      let fs1 := fsWrite fs interrupt_flag now
      let rc := runner cmd
      if rc ≠ 0 then
        if ¬ (tname = NodeRestart.type ∧ rc = -15) then
          (true, fsRemove fs1 interrupt_flag, [⟨i, cmd, fs1⟩])
        else
          (true, fs1, [⟨i, cmd, fs1⟩])
      else
        let r := doInterruptCmds runner tname interrupt_dir now (i + 1) rest fs1
        (r.1, r.2.1, ⟨i, cmd, fs1⟩ :: r.2.2)

/-- `do_interrupt` (after `interrupts.inflate`): returns the failure
bool, the final filesystem, and the executed-command trace. -/
def do_interrupt (runner : List String → Int) (ec : EnvConfig)
    (root_mount : String) (intr : Interrupt) (now : String) (fs : FS) :
    Bool × FS × List ExecEvent :=
  let interrupt_dir := interrupt_flag_dir ec root_mount
  let fs := fsMkdir fs interrupt_dir
  if intr.type = NoOp.type then
    (false, fsWrite fs (make_interrupt_flag interrupt_dir intr.type) now, [])
  else
    doInterruptCmds runner intr.type interrupt_dir now 0 intr.interrupt_cmd fs

/-! ## Mode orchestrator step loop (`controller.py`, `agent_main`)

The per-step loop of `agent_main` (lines 562–593) with
`received_sigterm` false.  Steps are paired with their position so the
trace of `run_step` invocations can name them. -/

/-- Outcome of the step loop: the returned failure bool, the filesystem,
the indices of steps for which `run_step` was invoked (in order), and the
check-mode results list. -/
structure LoopOutcome where
  failed : Bool
  fs : FS
  invoked : List Nat
  results : List Bool
deriving DecidableEq, Repr

def agent_main_loop (parseHist : String → Option HistoryData)
    (dumpHist : HistoryData → String) (environ : List (String × String))
    (runner : List String → List (String × String) → Int)
    (cfg : ConfigData) (ec : EnvConfig) (root_mount copy_dir : String)
    (mode : Mode) (always_run_step : Bool) (now : String) :
    List (Nat × Step) → FS → LoopOutcome
  | [], fs => ⟨false, fs, [], []⟩
  | (i, step0) :: rest, fs =>
    let flag_file := make_flag_path step0 cfg ec root_mount
    let hstep :=
      if mode = Mode.UPGRADE ∨ mode = Mode.UPGRADE_CHECK then
        get_or_update_history parseHist dumpHist cfg ec root_mount false step0 none now fs
      else (fs, step0)
    let fs := hstep.1
    let step := hstep.2
    if ¬ modeIsCheckStr mode then
      if check_flag_file step fs flag_file always_run_step mode then
        agent_main_loop parseHist dumpHist environ runner cfg ec root_mount copy_dir
          mode always_run_step now rest fs
      else
        let r := run_step environ runner copy_dir step
        if r.failed then ⟨true, fs, [i], []⟩
        else
          let fs := set_flag fs flag_file
            ("last_run: " ++ now ++ "\nstep_always_runs: " ++
              pyBoolStr (decide (step.idempotence = Idempotence.Disabled)))
          let o := agent_main_loop parseHist dumpHist environ runner cfg ec root_mount
            copy_dir mode always_run_step now rest fs
          ⟨o.failed, o.fs, i :: o.invoked, o.results⟩
    else
      let r := run_step environ runner copy_dir step
      let o := agent_main_loop parseHist dumpHist environ runner cfg ec root_mount
        copy_dir mode always_run_step now rest fs
      ⟨o.failed, o.fs, i :: o.invoked, r.failed :: o.results⟩

/-- `agent_main` specialized to `Mode.APPLY`: the START flag write
followed by the step loop.  For `apply` the post-loop
summarize/history/remove-flags branches are all skipped (`apply` is not
a check mode). -/
def agent_main_apply (parseHist : String → Option HistoryData)
    (dumpHist : HistoryData → String) (environ : List (String × String))
    (runner : List String → List (String × String) → Int)
    (cfg : ConfigData) (ec : EnvConfig) (root_mount copy_dir : String)
    (always_run_step : Bool) (now : String) (steps : List Step) (fs : FS) :
    LoopOutcome :=
  let fs := set_flag fs (get_flag_dir ec root_mount ++ "/START") ""
  agent_main_loop parseHist dumpHist environ runner cfg ec root_mount copy_dir
    Mode.APPLY always_run_step now steps.enum fs

/-! ## Support lemmas for the claims -/

theorem resolveArguments_errors (environ : List (String × String)) (p : String)
    (args : List String) :
    (resolveArguments environ p args).2 =
      (missingEnvVars environ args).map (envMissingMsg p) := by
  induction args with
  | nil => rfl
  | cons arg rest ih =>
    unfold resolveArguments missingEnvVars
    unfold missingEnvVars at ih
    by_cases hs : charsStartsWith arg.data "env:".data
    · cases hl : dictGet environ (envVarName arg) with
      | some v => simp [hs, hl, ih]
      | none => simp [hs, hl, ih]
    · simp [hs, ih]

/-- C1: for a step whose `env:` placeholders all resolve, `run_step`
executes the command and returns failure exactly when the exit code is
not in the accepted-return-code set. -/
theorem run_step_failure_iff_exit_code (environ : List (String × String))
    (runner : List String → List (String × String) → Int)
    (copy_dir : String) (step : Step)
    (h : missingEnvVars environ step.arguments = []) :
    (run_step environ runner copy_dir step).executed = true ∧
    ((run_step environ runner copy_dir step).failed = true ↔
      runner ((get_host_path_for_steps copy_dir ++ "/" ++ step.path) ::
          (resolveArguments environ step.path step.arguments).1)
        (dictUpdate (dictUpdate [] step.env)
          [("STEP_ROOT", get_host_path_for_steps copy_dir), ("SKYHOOK_DIR", copy_dir)])
        ∉ step.returncodes) := by
  have herr : (resolveArguments environ step.path step.arguments).2 = [] := by
    rw [resolveArguments_errors, h]
    rfl
  unfold run_step
  rw [if_neg (by simp [herr])]
  refine ⟨rfl, ?_⟩
  show (! step.returncodes.contains _) = true ↔ _
  rw [Bool.not_eq_eq_eq_not]
  show step.returncodes.contains _ = false ↔ _
  rw [← Bool.not_eq_true]
  constructor
  · intro hc hmem
    exact hc (List.elem_iff.mpr hmem)
  · intro hmem hc
    exact hmem (List.elem_iff.mp hc)

/-- C1 witness. -/
theorem run_step_failure_iff_exit_code_witness :
    (run_step [] (fun _ _ => 5) "cdir" (mkStep "foo.sh")).executed = true ∧
    ((run_step [] (fun _ _ => 5) "cdir" (mkStep "foo.sh")).failed = true ↔
      (fun (_ : List String) (_ : List (String × String)) => (5 : Int))
        ((get_host_path_for_steps "cdir" ++ "/" ++ (mkStep "foo.sh").path) ::
          (resolveArguments [] (mkStep "foo.sh").path (mkStep "foo.sh").arguments).1)
        (dictUpdate (dictUpdate [] (mkStep "foo.sh").env)
          [("STEP_ROOT", get_host_path_for_steps "cdir"), ("SKYHOOK_DIR", "cdir")])
        ∉ (mkStep "foo.sh").returncodes) :=
  run_step_failure_iff_exit_code [] (fun _ _ => 5) "cdir" (mkStep "foo.sh") (by decide)

/-- C7: when one or more `env:` placeholders name absent variables,
`run_step` fails, executes nothing, and reports every missing variable
by name. -/
theorem run_step_missing_env_reports_all (environ : List (String × String))
    (runner : List String → List (String × String) → Int)
    (copy_dir : String) (step : Step)
    (h : missingEnvVars environ step.arguments ≠ []) :
    (run_step environ runner copy_dir step).failed = true ∧
    (run_step environ runner copy_dir step).executed = false ∧
    (run_step environ runner copy_dir step).errors =
      (missingEnvVars environ step.arguments).map (envMissingMsg step.path) := by
  have herr : (resolveArguments environ step.path step.arguments).2 =
      (missingEnvVars environ step.arguments).map (envMissingMsg step.path) :=
    resolveArguments_errors environ step.path step.arguments
  unfold run_step
  rw [if_pos (by
    rw [herr]
    intro hnil
    exact h (List.map_eq_nil_iff.mp hnil))]
  exact ⟨rfl, rfl, herr⟩

/-- C7 witness. -/
theorem run_step_missing_env_reports_all_witness :
    (run_step [("B", "1")] (fun _ _ => 0) "cdir"
        { mkStep "p.sh" with arguments := ["env:FOO", "x", "env:BAR"] }).failed = true ∧
    (run_step [("B", "1")] (fun _ _ => 0) "cdir"
        { mkStep "p.sh" with arguments := ["env:FOO", "x", "env:BAR"] }).executed = false ∧
    (run_step [("B", "1")] (fun _ _ => 0) "cdir"
        { mkStep "p.sh" with arguments := ["env:FOO", "x", "env:BAR"] }).errors =
      (missingEnvVars [("B", "1")] ["env:FOO", "x", "env:BAR"]).map (envMissingMsg "p.sh") :=
  run_step_missing_env_reports_all [("B", "1")] (fun _ _ => 0) "cdir"
    { mkStep "p.sh" with arguments := ["env:FOO", "x", "env:BAR"] } (by decide)

/-- C8: the environment composer resolves a key from the step overrides
first, then the post-boundary (chroot) environment, then the pre-boundary
(container) environment, and is a pure function of its three inputs. -/
theorem get_process_env_precedence (container_env skyhook_env chroot_env :
      List (String × String)) (k : String)
    (hs : (dictKeys skyhook_env).Nodup) (hch : (dictKeys chroot_env).Nodup) :
    dictGet (_get_process_env container_env skyhook_env chroot_env) k =
      (match dictGet skyhook_env k with
       | some v => some v
       | none =>
         match dictGet chroot_env k with
         | some v => some v
         | none => dictGet container_env k) := by
  unfold _get_process_env
  rw [dictGet_dictUpdate _ _ _ hs]
  cases dictGet skyhook_env k with
  | some v => rfl
  | none =>
    show dictGet (dictUpdate container_env chroot_env) k = _
    rw [dictGet_dictUpdate _ _ _ hch]

/-- C8 witness: the spec's example — pre `{A:1}`, post `{A:2,B:2}`,
overrides `{A:3}` compose to `{A:3,B:2}`. -/
theorem get_process_env_precedence_witness :
    dictGet (_get_process_env [("A", "1")] [("A", "3")] [("A", "2"), ("B", "2")]) "A" =
      (match dictGet [("A", "3")] "A" with
       | some v => some v
       | none =>
         match dictGet [("A", "2"), ("B", "2")] "A" with
         | some v => some v
         | none => dictGet [("A", "1")] "A") :=
  get_process_env_precedence [("A", "1")] [("A", "3")] [("A", "2"), ("B", "2")] "A"
    (by decide) (by decide)

/-- C10: a `ScriptInterrupt` (empty command list, not `NoOp`) runs zero
commands, writes no completion flag, returns success, and leaves the
filesystem unchanged apart from the interrupt directory's creation —
unlike `NoOp`, which writes one synthetic completion flag. -/
theorem do_interrupt_script_interrupt_noop (runner : List String → Int)
    (ec : EnvConfig) (root_mount now : String) (fs : FS) :
    do_interrupt runner ec root_mount ScriptInterrupt now fs =
      (false, fsMkdir fs (interrupt_flag_dir ec root_mount), []) ∧
    do_interrupt runner ec root_mount NoOp now fs =
      (false,
       fsWrite (fsMkdir fs (interrupt_flag_dir ec root_mount))
         (make_interrupt_flag (interrupt_flag_dir ec root_mount) NoOp.type) now,
       []) := by
  constructor
  · unfold do_interrupt
    rw [if_neg (by decide)]
    rfl
  · unfold do_interrupt
    rw [if_pos rfl]

theorem stringDataInj (s t : String) (h : s.data = t.data) : s = t := by
  cases s
  cases t
  exact congrArg String.mk h

theorem self_ne_append_suffix (s t : String) (h : t.data ≠ []) : ¬ s = s ++ t := by
  intro hh
  have hlen := congrArg (fun x : String => x.data.length) hh
  simp only [String.data_append, List.length_append] at hlen
  have : t.data.length = 0 := by omega
  exact h (List.length_eq_zero.mp this)

theorem allChecked_ne_checkResults (a : String) (m : Mode) :
    ¬ (a ++ "/" ++ m.str ++ "_ALL_CHECKED" = a ++ "/check_results") := by
  intro h
  have hd := congrArg String.data h
  simp only [String.data_append, List.append_assoc] at hd
  have hd2 := List.append_cancel_left hd
  cases m <;> simp [Mode.str] at hd2

/-- C3 (amended): `summarize_check_results` fails iff the result count
differs from the configured check-step count or some result is a
failure; it persists the `(step-path, result)` table exactly when the
counts match (regardless of pass/fail — on a count mismatch it returns
failure without writing anything); and it writes the mode-specific
ALL_CHECKED marker exactly on pure success. -/
theorem summarize_check_results_spec (results : List Bool) (checkSteps : List Step)
    (m : Mode) (ec : EnvConfig) (root_mount : String) (fs : FS) :
    ((summarize_check_results results checkSteps m ec root_mount fs).1 =
      (decide (results.length ≠ checkSteps.length) || results.any id)) ∧
    (results.length = checkSteps.length →
      fsRead (summarize_check_results results checkSteps m ec root_mount fs).2
        (get_flag_dir ec root_mount ++ "/check_results") =
      some (joinStrs "\n"
        (List.zipWith (fun s r => s.path ++ " " ++ pyBoolStr r) checkSteps results))) ∧
    (results.length ≠ checkSteps.length →
      (summarize_check_results results checkSteps m ec root_mount fs).2 = fs) ∧
    ((summarize_check_results results checkSteps m ec root_mount fs).1 = false →
      fsRead (summarize_check_results results checkSteps m ec root_mount fs).2
        (get_flag_dir ec root_mount ++ "/" ++ m.str ++ "_ALL_CHECKED") = some "") ∧
    ((summarize_check_results results checkSteps m ec root_mount fs).1 = true →
      fsExists (summarize_check_results results checkSteps m ec root_mount fs).2
        (get_flag_dir ec root_mount ++ "/" ++ m.str ++ "_ALL_CHECKED") =
      fsExists fs (get_flag_dir ec root_mount ++ "/" ++ m.str ++ "_ALL_CHECKED")) := by
  unfold summarize_check_results
  by_cases hlen : results.length ≠ checkSteps.length
  · rw [if_pos hlen]
    refine ⟨by simp [hlen], fun h => absurd h hlen, fun _ => rfl, ?_, fun _ => rfl⟩
    intro h
    simp at h
  · rw [if_neg hlen]
    push_neg at hlen
    by_cases hany : results.any id
    · rw [if_pos hany]
      refine ⟨by simp [hlen, hany], fun _ => ?_, fun h => absurd hlen h, ?_, fun _ => ?_⟩
      · rw [fsRead_fsWrite, if_pos rfl]
      · intro h
        simp at h
      · rw [fsExists_fsWrite,
          decide_eq_false (allChecked_ne_checkResults (get_flag_dir ec root_mount) m),
          Bool.false_or]
    · rw [if_neg hany]
      refine ⟨by simp [hlen, Bool.eq_false_iff.mpr hany], fun _ => ?_,
        fun h => absurd hlen h, fun _ => ?_, ?_⟩
      · rw [fsRead_fsWrite,
          if_neg (fun hq => allChecked_ne_checkResults (get_flag_dir ec root_mount) m hq.symm),
          fsRead_fsWrite, if_pos rfl]
      · rw [fsRead_fsWrite, if_pos rfl]
      · intro h
        simp at h

/-- C3 witness: one check step, one passing result — the table is
persisted. -/
theorem summarize_check_results_spec_witness :
    fsRead (summarize_check_results [false] [mkStep "s"] Mode.APPLY_CHECK
        defaultEnvConfig "" fsEmpty).2
      (get_flag_dir defaultEnvConfig "" ++ "/check_results") =
    some (joinStrs "\n" (List.zipWith (fun s r => s.path ++ " " ++ pyBoolStr r)
      [mkStep "s"] [false])) :=
  (summarize_check_results_spec [false] [mkStep "s"] Mode.APPLY_CHECK
    defaultEnvConfig "" fsEmpty).2.1 (by decide)

/-- C3 counterexample: with one configured check step and an empty
results list the call returns failure but does NOT persist the
`check_results` table — refuting "persists the table regardless of
outcome". -/
theorem summarize_check_results_persist_counterexample :
    (summarize_check_results [] [mkStep "s"] Mode.APPLY_CHECK
      defaultEnvConfig "" fsEmpty).1 = true ∧
    fsExists (summarize_check_results [] [mkStep "s"] Mode.APPLY_CHECK
        defaultEnvConfig "" fsEmpty).2
      (get_flag_dir defaultEnvConfig "" ++ "/check_results") = false := by
  decide

/-- C4 (amended): when the on-disk history file exists but fails to
parse, the read renames it to a `.backup` path preserving its bytes and
proceeds with a synthesized record whose current-version is the empty
string `""` (the initial default — not `"unknown"`) and whose history is
empty; the `"unknown"` record is synthesized only when the file is
absent.  The record's current-version is observable as the
`PREVIOUS_VERSION` variable injected into the step's environment. -/
theorem get_or_update_history_read_recovery
    (parseHist : String → Option HistoryData) (dumpHist : HistoryData → String)
    (cfg : ConfigData) (ec : EnvConfig) (root_mount : String) (step : Step)
    (now : String) (fs : FS) :
    (∀ content,
      fsRead fs (get_history_dir ec root_mount ++ "/" ++ cfg.package_name ++ ".json") =
        some content →
      parseHist content = none →
      fsRead (get_or_update_history parseHist dumpHist cfg ec root_mount false step
          none now fs).1
        (get_history_dir ec root_mount ++ "/" ++ cfg.package_name ++ ".json" ++ ".backup") =
        some content ∧
      fsExists (get_or_update_history parseHist dumpHist cfg ec root_mount false step
          none now fs).1
        (get_history_dir ec root_mount ++ "/" ++ cfg.package_name ++ ".json") = false ∧
      dictGet (get_or_update_history parseHist dumpHist cfg ec root_mount false step
          none now fs).2.env "PREVIOUS_VERSION" = some "" ∧
      dictGet (get_or_update_history parseHist dumpHist cfg ec root_mount false step
          none now fs).2.env "CURRENT_VERSION" = some cfg.package_version) ∧
    (fsExists fs (get_history_dir ec root_mount ++ "/" ++ cfg.package_name ++ ".json") =
        false →
      (get_or_update_history parseHist dumpHist cfg ec root_mount false step
          none now fs).1 = fsMkdir fs (get_history_dir ec root_mount) ∧
      dictGet (get_or_update_history parseHist dumpHist cfg ec root_mount false step
          none now fs).2.env "PREVIOUS_VERSION" = some "unknown") := by
  have hfile : ∀ q : String, fsRead (fsMkdir fs (get_history_dir ec root_mount)) q = fsRead fs q :=
    fun q => fsRead_fsMkdir fs _ q
  have hex : ∀ q : String, fsExists (fsMkdir fs (get_history_dir ec root_mount)) q = fsExists fs q :=
    fun q => fsExists_fsMkdir fs _ q
  constructor
  · intro content hread hparse
    have hbackup_ne :
        ¬ (get_history_dir ec root_mount ++ "/" ++ cfg.package_name ++ ".json") =
          (get_history_dir ec root_mount ++ "/" ++ cfg.package_name ++ ".json") ++ ".backup" :=
      self_ne_append_suffix _ _ (by decide)
    have hexists :
        fsExists (fsMkdir fs (get_history_dir ec root_mount))
          (get_history_dir ec root_mount ++ "/" ++ cfg.package_name ++ ".json") = true := by
      rw [hex, fsExists_eq_isSome, hread]
      rfl
    unfold get_or_update_history
    simp only [hexists, if_true, hfile, hread, Option.getD_some, hparse]
    unfold fsRename
    rw [hfile, hread]
    cases hup : step.is_upgrade_step <;>
      simp only [hup, if_true, if_false, Bool.false_eq_true] <;>
      refine ⟨?_, ?_, ?_, ?_⟩ <;>
      first
      | (rw [fsRead_fsWrite, if_pos rfl])
      | (rw [fsExists_fsWrite, decide_eq_false hbackup_ne, Bool.false_or,
          fsExists_fsRemove]
         simp)
      | (rw [dictGet_dictInsert, if_pos rfl])
      | (rw [dictGet_dictInsert, if_neg (by decide), dictGet_dictInsert, if_pos rfl])
  · intro habsent
    have hexists :
        fsExists (fsMkdir fs (get_history_dir ec root_mount))
          (get_history_dir ec root_mount ++ "/" ++ cfg.package_name ++ ".json") = false := by
      rw [hex]
      exact habsent
    unfold get_or_update_history
    simp only [hexists, Bool.false_eq_true, if_false]
    cases hup : step.is_upgrade_step <;>
      simp only [hup, if_true, if_false, Bool.false_eq_true] <;>
      exact ⟨trivial, by rw [dictGet_dictInsert, if_pos rfl]⟩

/-- C4 witness: with no history file on disk the synthesized record's
current-version is `"unknown"`. -/
theorem get_or_update_history_read_recovery_witness :
    dictGet ((get_or_update_history (fun _ => none) (fun _ => "")
        ⟨"pkg", "1.0"⟩ defaultEnvConfig "" false (mkStep "s") none "t"
        fsEmpty).2).env "PREVIOUS_VERSION" = some "unknown" :=
  ((get_or_update_history_read_recovery (fun _ => none) (fun _ => "")
    ⟨"pkg", "1.0"⟩ defaultEnvConfig "" (mkStep "s") "t" fsEmpty).2 (by decide)).2

/-- C4 counterexample: a corrupt history file is archived to `.backup`
(bytes preserved), but the synthesized record's current-version is `""`,
not `"unknown"` as the claim states. -/
theorem history_corrupt_unknown_counterexample :
    fsRead (get_or_update_history (fun _ => none) (fun _ => "")
        ⟨"pkg", "1.0"⟩ defaultEnvConfig "" false (mkStep "s") none "t"
        (fsWrite fsEmpty "/etc/skyhook/history/pkg.json" "\x7b")).1
      "/etc/skyhook/history/pkg.json.backup" = some "\x7b" ∧
    ¬ dictGet ((get_or_update_history (fun _ => none) (fun _ => "")
        ⟨"pkg", "1.0"⟩ defaultEnvConfig "" false (mkStep "s") none "t"
        (fsWrite fsEmpty "/etc/skyhook/history/pkg.json" "\x7b")).2).env
      "PREVIOUS_VERSION" = some "unknown" := by
  decide

/-! ## Interrupt loop lemmas -/

theorem doInterruptCmds_preserves (runner : List String → Int) (tname dir now : String)
    (cmds : List (List String)) (i : Nat) (fs : FS) (p : String)
    (hp : fsExists fs p = true) :
    fsExists (doInterruptCmds runner tname dir now i cmds fs).2.1 p = true ∧
    ∀ e ∈ (doInterruptCmds runner tname dir now i cmds fs).2.2,
      fsExists e.fsAtExec p = true := by
  induction cmds generalizing i fs with
  | nil =>
    refine ⟨hp, ?_⟩
    intro e he
    simp [doInterruptCmds] at he
  | cons cmd rest ih =>
    simp only [doInterruptCmds]
    by_cases hflag : fsExists fs (make_interrupt_flag dir (tname ++ "_" ++ natRepr i)) = true
    · rw [if_pos hflag]
      exact ih (i + 1) fs hp
    · rw [if_neg hflag]
      have hp1 : fsExists (fsWrite fs (make_interrupt_flag dir (tname ++ "_" ++ natRepr i)) now) p = true := by
        rw [fsExists_fsWrite, hp, Bool.or_true]
      have hpne : ¬ (p = make_interrupt_flag dir (tname ++ "_" ++ natRepr i)) := by
        intro hpe
        exact hflag (hpe ▸ hp)
      by_cases hrc : runner cmd ≠ 0
      · rw [if_pos hrc]
        by_cases hsp : ¬ (tname = NodeRestart.type ∧ runner cmd = -15)
        · rw [if_pos hsp]
          refine ⟨?_, ?_⟩
          · rw [fsExists_fsRemove, hp1, decide_eq_true hpne, Bool.true_and]
          · intro e he
            rcases List.mem_singleton.mp he with rfl
            exact hp1
        · rw [if_neg hsp]
          refine ⟨hp1, ?_⟩
          intro e he
          rcases List.mem_singleton.mp he with rfl
          exact hp1
      · rw [if_neg hrc]
        have := ih (i + 1) (fsWrite fs (make_interrupt_flag dir (tname ++ "_" ++ natRepr i)) now) hp1
        refine ⟨this.1, ?_⟩
        intro e he
        rcases List.mem_cons.mp he with rfl | he
        · exact hp1
        · exact this.2 e he

theorem doInterruptCmds_flag_before_run (runner : List String → Int)
    (tname dir now : String) (cmds : List (List String)) (i : Nat) (fs : FS) :
    ∀ e ∈ (doInterruptCmds runner tname dir now i cmds fs).2.2,
      fsExists e.fsAtExec (make_interrupt_flag dir (tname ++ "_" ++ natRepr e.idx)) = true := by
  induction cmds generalizing i fs with
  | nil =>
    intro e he
    simp [doInterruptCmds] at he
  | cons cmd rest ih =>
    intro e he
    simp only [doInterruptCmds] at he
    by_cases hflag : fsExists fs (make_interrupt_flag dir (tname ++ "_" ++ natRepr i)) = true
    · rw [if_pos hflag] at he
      exact ih (i + 1) fs e he
    · rw [if_neg hflag] at he
      have hself : fsExists
          (fsWrite fs (make_interrupt_flag dir (tname ++ "_" ++ natRepr i)) now)
          (make_interrupt_flag dir (tname ++ "_" ++ natRepr i)) = true := by
        rw [fsExists_fsWrite, decide_eq_true rfl, Bool.true_or]
      by_cases hrc : runner cmd ≠ 0
      · rw [if_pos hrc] at he
        by_cases hsp : ¬ (tname = NodeRestart.type ∧ runner cmd = -15)
        · rw [if_pos hsp] at he
          rcases List.mem_singleton.mp he with rfl
          exact hself
        · rw [if_neg hsp] at he
          rcases List.mem_singleton.mp he with rfl
          exact hself
      · rw [if_neg hrc] at he
        rcases List.mem_cons.mp he with rfl | he
        · exact hself
        · exact ih (i + 1) _ e he

theorem doInterruptCmds_skips_existing (runner : List String → Int)
    (tname dir now : String) (cmds : List (List String)) (i : Nat) (fs : FS)
    (j : Nat) (hj : fsExists fs (make_interrupt_flag dir (tname ++ "_" ++ natRepr j)) = true) :
    ∀ e ∈ (doInterruptCmds runner tname dir now i cmds fs).2.2, e.idx ≠ j := by
  induction cmds generalizing i fs with
  | nil =>
    intro e he
    simp [doInterruptCmds] at he
  | cons cmd rest ih =>
    intro e he
    simp only [doInterruptCmds] at he
    by_cases hflag : fsExists fs (make_interrupt_flag dir (tname ++ "_" ++ natRepr i)) = true
    · rw [if_pos hflag] at he
      exact ih (i + 1) fs hj e he
    · rw [if_neg hflag] at he
      have hij : i ≠ j := by
        intro hij
        exact hflag (hij ▸ hj)
      have hj1 : fsExists (fsWrite fs (make_interrupt_flag dir (tname ++ "_" ++ natRepr i)) now)
          (make_interrupt_flag dir (tname ++ "_" ++ natRepr j)) = true := by
        rw [fsExists_fsWrite, hj, Bool.or_true]
      by_cases hrc : runner cmd ≠ 0
      · rw [if_pos hrc] at he
        by_cases hsp : ¬ (tname = NodeRestart.type ∧ runner cmd = -15)
        · rw [if_pos hsp] at he
          rcases List.mem_singleton.mp he with rfl
          exact hij
        · rw [if_neg hsp] at he
          rcases List.mem_singleton.mp he with rfl
          exact hij
      · rw [if_neg hrc] at he
        rcases List.mem_cons.mp he with rfl | he
        · exact hij
        · exact ih (i + 1) _ hj1 e he

theorem doInterruptCmds_idx_ge (runner : List String → Int)
    (tname dir now : String) (cmds : List (List String)) (i : Nat) (fs : FS) :
    ∀ e ∈ (doInterruptCmds runner tname dir now i cmds fs).2.2, i ≤ e.idx := by
  induction cmds generalizing i fs with
  | nil =>
    intro e he
    simp [doInterruptCmds] at he
  | cons cmd rest ih =>
    intro e he
    simp only [doInterruptCmds] at he
    by_cases hflag : fsExists fs (make_interrupt_flag dir (tname ++ "_" ++ natRepr i)) = true
    · rw [if_pos hflag] at he
      exact Nat.le_of_succ_le (ih (i + 1) fs e he)
    · rw [if_neg hflag] at he
      by_cases hrc : runner cmd ≠ 0
      · rw [if_pos hrc] at he
        by_cases hsp : ¬ (tname = NodeRestart.type ∧ runner cmd = -15)
        · rw [if_pos hsp] at he
          rcases List.mem_singleton.mp he with rfl
          exact Nat.le_refl i
        · rw [if_neg hsp] at he
          rcases List.mem_singleton.mp he with rfl
          exact Nat.le_refl i
      · rw [if_neg hrc] at he
        rcases List.mem_cons.mp he with rfl | he
        · exact Nat.le_refl i
        · exact Nat.le_of_succ_le (ih (i + 1) _ e he)

theorem doInterruptCmds_abort (runner : List String → Int)
    (tname dir now : String) (cmds : List (List String)) (i : Nat) (fs : FS)
    (e : ExecEvent) (he : e ∈ (doInterruptCmds runner tname dir now i cmds fs).2.2)
    (hrc : runner e.cmd ≠ 0) :
    (doInterruptCmds runner tname dir now i cmds fs).1 = true ∧
    ∀ e2 ∈ (doInterruptCmds runner tname dir now i cmds fs).2.2, e2.idx ≤ e.idx := by
  induction cmds generalizing i fs with
  | nil => simp [doInterruptCmds] at he
  | cons cmd rest ih =>
    simp only [doInterruptCmds] at he ⊢
    by_cases hflag : fsExists fs (make_interrupt_flag dir (tname ++ "_" ++ natRepr i)) = true
    · rw [if_pos hflag] at he ⊢
      exact ih (i + 1) fs he
    · rw [if_neg hflag] at he ⊢
      by_cases hcmd : runner cmd ≠ 0
      · rw [if_pos hcmd] at he ⊢
        by_cases hsp : ¬ (tname = NodeRestart.type ∧ runner cmd = -15)
        · rw [if_pos hsp] at he ⊢
          rcases List.mem_singleton.mp he with rfl
          refine ⟨rfl, ?_⟩
          intro e2 he2
          rcases List.mem_singleton.mp he2 with rfl
          exact Nat.le_refl _
        · rw [if_neg hsp] at he ⊢
          rcases List.mem_singleton.mp he with rfl
          refine ⟨rfl, ?_⟩
          intro e2 he2
          rcases List.mem_singleton.mp he2 with rfl
          exact Nat.le_refl _
      · rw [if_neg hcmd] at he ⊢
        rcases List.mem_cons.mp he with rfl | he
        · exact absurd hrc hcmd
        · have := ih (i + 1) _ he
          refine ⟨this.1, ?_⟩
          intro e2 he2
          rcases List.mem_cons.mp he2 with rfl | he2
          · exact Nat.le_of_succ_le
              (doInterruptCmds_idx_ge runner tname dir now rest (i + 1) _ e he)
          · exact this.2 e2 he2

theorem doInterruptCmds_failure_flag (runner : List String → Int)
    (tname dir now : String) (cmds : List (List String)) (i : Nat) (fs : FS)
    (e : ExecEvent) (he : e ∈ (doInterruptCmds runner tname dir now i cmds fs).2.2)
    (hrc : runner e.cmd ≠ 0) :
    (if tname = NodeRestart.type ∧ runner e.cmd = -15 then
      fsExists (doInterruptCmds runner tname dir now i cmds fs).2.1
        (make_interrupt_flag dir (tname ++ "_" ++ natRepr e.idx)) = true
    else
      fsExists (doInterruptCmds runner tname dir now i cmds fs).2.1
        (make_interrupt_flag dir (tname ++ "_" ++ natRepr e.idx)) = false) := by
  induction cmds generalizing i fs with
  | nil => simp [doInterruptCmds] at he
  | cons cmd rest ih =>
    simp only [doInterruptCmds] at he ⊢
    by_cases hflag : fsExists fs (make_interrupt_flag dir (tname ++ "_" ++ natRepr i)) = true
    · rw [if_pos hflag] at he ⊢
      exact ih (i + 1) fs he
    · rw [if_neg hflag] at he ⊢
      by_cases hcmd : runner cmd ≠ 0
      · rw [if_pos hcmd] at he ⊢
        by_cases hsp : ¬ (tname = NodeRestart.type ∧ runner cmd = -15)
        · rw [if_pos hsp] at he ⊢
          rcases List.mem_singleton.mp he with rfl
          rw [if_neg hsp]
          rw [fsExists_fsRemove, decide_eq_false (by simp)]
          rfl
        · rw [if_neg hsp] at he ⊢
          rcases List.mem_singleton.mp he with rfl
          rw [if_pos (not_not.mp hsp)]
          rw [fsExists_fsWrite, decide_eq_true rfl, Bool.true_or]
      · rw [if_neg hcmd] at he ⊢
        rcases List.mem_cons.mp he with rfl | he
        · exact absurd hrc hcmd
        · exact ih (i + 1) _ he

theorem doInterruptCmds_success_flags (runner : List String → Int)
    (tname dir now : String) (cmds : List (List String)) (i : Nat) (fs : FS)
    (hres : (doInterruptCmds runner tname dir now i cmds fs).1 = false) :
    ∀ j, i ≤ j → j < i + cmds.length →
      fsExists (doInterruptCmds runner tname dir now i cmds fs).2.1
        (make_interrupt_flag dir (tname ++ "_" ++ natRepr j)) = true := by
  induction cmds generalizing i fs with
  | nil =>
    intro j hj1 hj2
    simp at hj2
    omega
  | cons cmd rest ih =>
    intro j hj1 hj2
    simp only [doInterruptCmds] at hres ⊢
    by_cases hflag : fsExists fs (make_interrupt_flag dir (tname ++ "_" ++ natRepr i)) = true
    · rw [if_pos hflag] at hres ⊢
      rcases Nat.eq_or_lt_of_le hj1 with heq | hlt
      · subst heq
        exact (doInterruptCmds_preserves runner tname dir now rest (i + 1) fs _ hflag).1
      · exact ih (i + 1) fs hres j hlt (by simp at hj2; omega)
    · rw [if_neg hflag] at hres ⊢
      by_cases hcmd : runner cmd ≠ 0
      · rw [if_pos hcmd] at hres
        by_cases hsp : ¬ (tname = NodeRestart.type ∧ runner cmd = -15)
        · rw [if_pos hsp] at hres
          exact absurd hres (by simp)
        · rw [if_neg hsp] at hres
          exact absurd hres (by simp)
      · rw [if_neg hcmd] at hres ⊢
        have hself : fsExists
            (fsWrite fs (make_interrupt_flag dir (tname ++ "_" ++ natRepr i)) now)
            (make_interrupt_flag dir (tname ++ "_" ++ natRepr i)) = true := by
          rw [fsExists_fsWrite, decide_eq_true rfl, Bool.true_or]
        rcases Nat.eq_or_lt_of_le hj1 with heq | hlt
        · subst heq
          exact (doInterruptCmds_preserves runner tname dir now rest (i + 1) _ _ hself).1
        · exact ih (i + 1) _ hres j hlt (by simp at hj2; omega)

theorem doInterruptCmds_all_flags_skip (runner : List String → Int)
    (tname dir now : String) (cmds : List (List String)) (i : Nat) (fs : FS)
    (hall : ∀ j, i ≤ j → j < i + cmds.length →
      fsExists fs (make_interrupt_flag dir (tname ++ "_" ++ natRepr j)) = true) :
    doInterruptCmds runner tname dir now i cmds fs = (false, fs, []) := by
  induction cmds generalizing i fs with
  | nil => rfl
  | cons cmd rest ih =>
    simp only [doInterruptCmds]
    rw [if_pos (hall i (Nat.le_refl i) (by simp))]
    exact ih (i + 1) fs (fun j hj1 hj2 => hall j (Nat.le_of_succ_le hj1) (by simp at hj2 ⊢; omega))

/-- C2 counterexample: a `NodeRestart` interrupt whose command exits
`-15` keeps its completion flag, but `do_interrupt` still returns `True`
(failure) — it is not "treated as success". -/
theorem node_restart_sigterm_success_counterexample :
    (do_interrupt (fun _ => -15) defaultEnvConfig "" NodeRestart "t" fsEmpty).1 = true ∧
    fsExists (do_interrupt (fun _ => -15) defaultEnvConfig "" NodeRestart "t" fsEmpty).2.1
      (make_interrupt_flag (interrupt_flag_dir defaultEnvConfig "")
        (NodeRestart.type ++ "_" ++ natRepr 0)) = true := by
  decide

/-- C2 (amended): for every interrupt command that exits non-zero,
`do_interrupt` returns failure; the just-written completion flag is
removed (so a retry re-attempts) except for the single combination of a
node-restart interrupt with exit code `-15`, whose flag is left in place
(so a retry skips the restart) — but which is still reported as a
failure, not a success. -/
theorem do_interrupt_failure_rollback (runner : List String → Int) (ec : EnvConfig)
    (root_mount : String) (intr : Interrupt) (now : String) (fs : FS) (e : ExecEvent)
    (he : e ∈ (do_interrupt runner ec root_mount intr now fs).2.2)
    (hrc : runner e.cmd ≠ 0) :
    (do_interrupt runner ec root_mount intr now fs).1 = true ∧
    (¬ (intr.type = NodeRestart.type ∧ runner e.cmd = -15) →
      fsExists (do_interrupt runner ec root_mount intr now fs).2.1
        (make_interrupt_flag (interrupt_flag_dir ec root_mount)
          (intr.type ++ "_" ++ natRepr e.idx)) = false) ∧
    ((intr.type = NodeRestart.type ∧ runner e.cmd = -15) →
      fsExists (do_interrupt runner ec root_mount intr now fs).2.1
        (make_interrupt_flag (interrupt_flag_dir ec root_mount)
          (intr.type ++ "_" ++ natRepr e.idx)) = true) := by
  unfold do_interrupt at he ⊢
  by_cases hno : intr.type = NoOp.type
  · rw [if_pos hno] at he
    simp at he
  · rw [if_neg hno] at he ⊢
    have habort := doInterruptCmds_abort runner intr.type
      (interrupt_flag_dir ec root_mount) now intr.interrupt_cmd 0
      (fsMkdir fs (interrupt_flag_dir ec root_mount)) e he hrc
    have hfl := doInterruptCmds_failure_flag runner intr.type
      (interrupt_flag_dir ec root_mount) now intr.interrupt_cmd 0
      (fsMkdir fs (interrupt_flag_dir ec root_mount)) e he hrc
    refine ⟨habort.1, ?_, ?_⟩
    · intro hsp
      rwa [if_neg hsp] at hfl
    · intro hsp
      rwa [if_pos hsp] at hfl

/-- C2 witness: a non-node-restart interrupt whose first command exits
non-zero has its flag rolled back. -/
theorem do_interrupt_failure_rollback_witness :
    fsExists (do_interrupt (fun _ => 1) defaultEnvConfig ""
        (ServiceRestart ["a"]) "t" fsEmpty).2.1
      (make_interrupt_flag (interrupt_flag_dir defaultEnvConfig "")
        ((ServiceRestart ["a"]).type ++ "_" ++ natRepr 0)) = false :=
  (do_interrupt_failure_rollback (fun _ => 1) defaultEnvConfig ""
    (ServiceRestart ["a"]) "t" fsEmpty
    ⟨0, ["systemctl", "daemon-reload"],
      fsWrite (fsMkdir fsEmpty (interrupt_flag_dir defaultEnvConfig ""))
        (make_interrupt_flag (interrupt_flag_dir defaultEnvConfig "")
          ((ServiceRestart ["a"]).type ++ "_" ++ natRepr 0)) "t"⟩
    (by decide) (by decide)).2.1 (by decide)

/-- C6: `do_interrupt` skips a command whose per-(resource identity,
interrupt type, index) completion flag already exists; it writes the flag
before running the command; a failing command aborts the remaining
commands and the call returns failure; and after a fully successful
invocation, a retried delivery executes no commands at all. -/
theorem do_interrupt_at_most_once (runner runner2 : List String → Int)
    (ec : EnvConfig) (root_mount : String) (intr : Interrupt) (now now2 : String)
    (fs : FS) :
    (∀ j : Nat,
      fsExists fs (make_interrupt_flag (interrupt_flag_dir ec root_mount)
        (intr.type ++ "_" ++ natRepr j)) = true →
      ∀ e ∈ (do_interrupt runner ec root_mount intr now fs).2.2, e.idx ≠ j) ∧
    (∀ e ∈ (do_interrupt runner ec root_mount intr now fs).2.2,
      fsExists e.fsAtExec (make_interrupt_flag (interrupt_flag_dir ec root_mount)
        (intr.type ++ "_" ++ natRepr e.idx)) = true) ∧
    (∀ e ∈ (do_interrupt runner ec root_mount intr now fs).2.2,
      runner e.cmd ≠ 0 →
      (do_interrupt runner ec root_mount intr now fs).1 = true ∧
      ∀ e2 ∈ (do_interrupt runner ec root_mount intr now fs).2.2, e2.idx ≤ e.idx) ∧
    ((do_interrupt runner ec root_mount intr now fs).1 = false →
      (do_interrupt runner2 ec root_mount intr now2
        (do_interrupt runner ec root_mount intr now fs).2.1).2.2 = []) := by
  simp only [do_interrupt]
  by_cases hno : intr.type = NoOp.type
  · rw [if_pos hno, if_pos hno]
    refine ⟨?_, ?_, ?_, fun _ => rfl⟩
    · intro j _ e he
      simp at he
    · intro e he
      simp at he
    · intro e he
      simp at he
  · rw [if_neg hno, if_neg hno]
    refine ⟨?_, ?_, ?_, ?_⟩
    · intro j hj e he
      exact doInterruptCmds_skips_existing runner intr.type _ now intr.interrupt_cmd 0
        (fsMkdir fs (interrupt_flag_dir ec root_mount)) j
        (by rwa [fsExists_fsMkdir]) e he
    · exact doInterruptCmds_flag_before_run runner intr.type _ now intr.interrupt_cmd 0 _
    · intro e he hrc
      exact doInterruptCmds_abort runner intr.type _ now intr.interrupt_cmd 0 _ e he hrc
    · intro hres
      rw [doInterruptCmds_all_flags_skip runner2 intr.type _ now2 intr.interrupt_cmd 0 _
        (fun j hj1 hj2 => by
          rw [fsExists_fsMkdir]
          exact doInterruptCmds_success_flags runner intr.type _ now intr.interrupt_cmd 0 _
            hres j hj1 hj2)]

/-- C6 witness: a flag written by a successful invocation makes a second
invocation execute nothing. -/
theorem do_interrupt_at_most_once_witness :
    (do_interrupt (fun _ => 7) defaultEnvConfig "" (ServiceRestart ["a"]) "u"
      (do_interrupt (fun _ => 0) defaultEnvConfig "" (ServiceRestart ["a"]) "t"
        fsEmpty).2.1).2.2 = [] :=
  (do_interrupt_at_most_once (fun _ => 0) (fun _ => 7) defaultEnvConfig ""
    (ServiceRestart ["a"]) "t" "u" fsEmpty).2.2.2 (by decide)

/-! ## Apply-loop lemmas -/

theorem fsExists_set_flag (fs : FS) (f msg p : String) :
    fsExists (set_flag fs f msg) p = (p = f || fsExists fs p) := by
  unfold set_flag
  rw [fsExists_fsWrite, fsExists_fsMkdir]

theorem check_flag_file_disabled (step : Step) (fs : FS) (f : String) (a : Bool)
    (m : Mode) (h : step.idempotence = Idempotence.Disabled) :
    check_flag_file step fs f a m = false := by
  unfold check_flag_file
  by_cases hex : fsExists fs f = true
  · rw [if_pos hex]
    cases a
    · rw [if_neg (by simp)]
      by_cases hm : ([Mode.CONFIG, Mode.UNINSTALL, Mode.UPGRADE].contains m) = true
      · rw [if_pos hm]
      · rw [if_neg hm, if_pos h]
    · rw [if_pos rfl]
  · rw [if_neg hex]

theorem check_flag_file_exists_of_true (step : Step) (fs : FS) (f : String)
    (a : Bool) (m : Mode) (h : check_flag_file step fs f a m = true) :
    fsExists fs f = true := by
  unfold check_flag_file at h
  by_cases hex : fsExists fs f = true
  · exact hex
  · rw [if_neg hex] at h
    exact absurd h (by simp)

theorem check_flag_file_apply_auto (step : Step) (fs : FS) (f : String)
    (hex : fsExists fs f = true) (hidem : step.idempotence = Idempotence.Auto) :
    check_flag_file step fs f false Mode.APPLY = true := by
  unfold check_flag_file
  rw [if_pos hex, if_neg (by simp), if_neg (by decide), if_neg (by simp [hidem])]

theorem agent_main_loop_apply_cons (P : String → Option HistoryData)
    (D : HistoryData → String) (env : List (String × String))
    (runner : List String → List (String × String) → Int)
    (cfg : ConfigData) (ec : EnvConfig) (rm cd : String) (always : Bool)
    (now : String) (i : Nat) (step : Step) (rest : List (Nat × Step)) (fs : FS) :
    agent_main_loop P D env runner cfg ec rm cd Mode.APPLY always now
        ((i, step) :: rest) fs =
      (if check_flag_file step fs (make_flag_path step cfg ec rm) always Mode.APPLY then
        agent_main_loop P D env runner cfg ec rm cd Mode.APPLY always now rest fs
      else if (run_step env runner cd step).failed then ⟨true, fs, [i], []⟩
      else
        let o := agent_main_loop P D env runner cfg ec rm cd Mode.APPLY always now rest
          (set_flag fs (make_flag_path step cfg ec rm)
            ("last_run: " ++ now ++ "\nstep_always_runs: " ++
              pyBoolStr (decide (step.idempotence = Idempotence.Disabled))))
        ⟨o.failed, o.fs, i :: o.invoked, o.results⟩) := by
  simp only [agent_main_loop]
  rw [if_neg (by decide : ¬ (Mode.APPLY = Mode.UPGRADE ∨ Mode.APPLY = Mode.UPGRADE_CHECK)),
    if_pos (by decide : ¬ modeIsCheckStr Mode.APPLY = true)]

theorem agent_main_loop_apply_monotone (P : String → Option HistoryData)
    (D : HistoryData → String) (env : List (String × String))
    (runner : List String → List (String × String) → Int)
    (cfg : ConfigData) (ec : EnvConfig) (rm cd : String) (always : Bool)
    (now : String) (list : List (Nat × Step)) (fs : FS) (p : String)
    (hp : fsExists fs p = true) :
    fsExists (agent_main_loop P D env runner cfg ec rm cd Mode.APPLY always now
      list fs).fs p = true := by
  induction list generalizing fs with
  | nil => exact hp
  | cons hd rest ih =>
    obtain ⟨i, step⟩ := hd
    rw [agent_main_loop_apply_cons]
    by_cases hc : check_flag_file step fs (make_flag_path step cfg ec rm) always
        Mode.APPLY = true
    · rw [if_pos hc]
      exact ih fs hp
    · rw [if_neg hc]
      by_cases hr : (run_step env runner cd step).failed = true
      · rw [if_pos hr]
        exact hp
      · rw [if_neg hr]
        exact ih _ (by rw [fsExists_set_flag, hp, Bool.or_true])

theorem agent_main_loop_apply_invoked_sublist (P : String → Option HistoryData)
    (D : HistoryData → String) (env : List (String × String))
    (runner : List String → List (String × String) → Int)
    (cfg : ConfigData) (ec : EnvConfig) (rm cd : String) (always : Bool)
    (now : String) (list : List (Nat × Step)) (fs : FS) :
    List.Sublist (agent_main_loop P D env runner cfg ec rm cd Mode.APPLY always now
      list fs).invoked (list.map Prod.fst) := by
  induction list generalizing fs with
  | nil => exact List.nil_sublist _
  | cons hd rest ih =>
    obtain ⟨i, step⟩ := hd
    rw [agent_main_loop_apply_cons]
    by_cases hc : check_flag_file step fs (make_flag_path step cfg ec rm) always
        Mode.APPLY = true
    · rw [if_pos hc]
      exact List.Sublist.cons i (ih fs)
    · rw [if_neg hc]
      by_cases hr : (run_step env runner cd step).failed = true
      · rw [if_pos hr]
        exact List.Sublist.cons₂ i (List.nil_sublist _)
      · rw [if_neg hr]
        exact List.Sublist.cons₂ i (ih _)

theorem agent_main_loop_apply_success (P : String → Option HistoryData)
    (D : HistoryData → String) (env : List (String × String))
    (runner : List String → List (String × String) → Int)
    (cfg : ConfigData) (ec : EnvConfig) (rm cd : String) (always : Bool)
    (now : String) (list : List (Nat × Step)) (fs : FS)
    (hok : ∀ p ∈ list, (run_step env runner cd p.2).failed = false) :
    (agent_main_loop P D env runner cfg ec rm cd Mode.APPLY always now
      list fs).failed = false ∧
    ∀ p ∈ list, fsExists (agent_main_loop P D env runner cfg ec rm cd Mode.APPLY
      always now list fs).fs (make_flag_path p.2 cfg ec rm) = true := by
  induction list generalizing fs with
  | nil =>
    refine ⟨rfl, ?_⟩
    intro p hp
    cases hp
  | cons hd rest ih =>
    obtain ⟨i, step⟩ := hd
    have hokh : (run_step env runner cd step).failed = false :=
      hok (i, step) (List.mem_cons_self _ _)
    have hokr : ∀ p ∈ rest, (run_step env runner cd p.2).failed = false :=
      fun p hp => hok p (List.mem_cons_of_mem _ hp)
    rw [agent_main_loop_apply_cons]
    by_cases hc : check_flag_file step fs (make_flag_path step cfg ec rm) always
        Mode.APPLY = true
    · rw [if_pos hc]
      have hfl := check_flag_file_exists_of_true step fs _ always Mode.APPLY hc
      refine ⟨(ih fs hokr).1, ?_⟩
      intro p hp
      rcases List.mem_cons.mp hp with heq | hp
      · subst heq
        exact agent_main_loop_apply_monotone P D env runner cfg ec rm cd always now
          rest fs _ hfl
      · exact (ih fs hokr).2 p hp
    · rw [if_neg hc, if_neg (by rw [hokh]; simp)]
      refine ⟨(ih _ hokr).1, ?_⟩
      intro p hp
      rcases List.mem_cons.mp hp with heq | hp
      · subst heq
        exact agent_main_loop_apply_monotone P D env runner cfg ec rm cd always now
          rest _ _ (by rw [fsExists_set_flag, decide_eq_true rfl, Bool.true_or])
      · exact (ih _ hokr).2 p hp

theorem agent_main_loop_apply_disabled_invoked (P : String → Option HistoryData)
    (D : HistoryData → String) (env : List (String × String))
    (runner : List String → List (String × String) → Int)
    (cfg : ConfigData) (ec : EnvConfig) (rm cd : String) (always : Bool)
    (now : String) (list : List (Nat × Step)) (fs : FS)
    (hok : ∀ p ∈ list, (run_step env runner cd p.2).failed = false) :
    ∀ p ∈ list, p.2.idempotence = Idempotence.Disabled →
      p.1 ∈ (agent_main_loop P D env runner cfg ec rm cd Mode.APPLY always now
        list fs).invoked := by
  induction list generalizing fs with
  | nil =>
    intro p hp
    cases hp
  | cons hd rest ih =>
    obtain ⟨i, step⟩ := hd
    have hokh : (run_step env runner cd step).failed = false :=
      hok (i, step) (List.mem_cons_self _ _)
    have hokr : ∀ p ∈ rest, (run_step env runner cd p.2).failed = false :=
      fun p hp => hok p (List.mem_cons_of_mem _ hp)
    intro p hp hdis
    rw [agent_main_loop_apply_cons]
    rcases List.mem_cons.mp hp with heq | hp
    · subst heq
      rw [if_neg (by rw [check_flag_file_disabled _ _ _ _ _ hdis]; simp),
        if_neg (by rw [hokh]; simp)]
      exact List.mem_cons_self _ _
    · by_cases hc : check_flag_file step fs (make_flag_path step cfg ec rm) always
          Mode.APPLY = true
      · rw [if_pos hc]
        exact ih fs hokr p hp hdis
      · rw [if_neg hc, if_neg (by rw [hokh]; simp)]
        exact List.mem_cons_of_mem i (ih _ hokr p hp hdis)

theorem agent_main_loop_apply_all_flagged (P : String → Option HistoryData)
    (D : HistoryData → String) (env : List (String × String))
    (runner : List String → List (String × String) → Int)
    (cfg : ConfigData) (ec : EnvConfig) (rm cd : String)
    (now : String) (list : List (Nat × Step)) (fs : FS)
    (hflags : ∀ p ∈ list, fsExists fs (make_flag_path p.2 cfg ec rm) = true)
    (hok : ∀ p ∈ list, (run_step env runner cd p.2).failed = false) :
    (agent_main_loop P D env runner cfg ec rm cd Mode.APPLY false now
      list fs).failed = false ∧
    (agent_main_loop P D env runner cfg ec rm cd Mode.APPLY false now
      list fs).invoked =
      (list.filter (fun p => decide (p.2.idempotence = Idempotence.Disabled))).map
        Prod.fst := by
  induction list generalizing fs with
  | nil => exact ⟨rfl, rfl⟩
  | cons hd rest ih =>
    obtain ⟨i, step⟩ := hd
    have hflh : fsExists fs (make_flag_path step cfg ec rm) = true :=
      hflags (i, step) (List.mem_cons_self _ _)
    have hflr : ∀ p ∈ rest, fsExists fs (make_flag_path p.2 cfg ec rm) = true :=
      fun p hp => hflags p (List.mem_cons_of_mem _ hp)
    have hokh : (run_step env runner cd step).failed = false :=
      hok (i, step) (List.mem_cons_self _ _)
    have hokr : ∀ p ∈ rest, (run_step env runner cd p.2).failed = false :=
      fun p hp => hok p (List.mem_cons_of_mem _ hp)
    rw [agent_main_loop_apply_cons]
    by_cases hidem : step.idempotence = Idempotence.Disabled
    case neg =>
      have hauto : step.idempotence = Idempotence.Auto := by
        cases h2 : step.idempotence
        · rfl
        · exact absurd h2 hidem
      rw [if_pos (check_flag_file_apply_auto step fs _ hflh hauto),
        List.filter_cons_of_neg (by simp [hidem])]
      exact ih fs hflr hokr
    case pos =>
      rw [if_neg (by rw [check_flag_file_disabled _ _ _ _ _ hidem]; simp),
        if_neg (by rw [hokh]; simp),
        List.filter_cons_of_pos (by simp [hidem])]
      have hflr1 : ∀ p ∈ rest,
          fsExists (set_flag fs (make_flag_path step cfg ec rm)
            ("last_run: " ++ now ++ "\nstep_always_runs: " ++
              pyBoolStr (decide (step.idempotence = Idempotence.Disabled))))
            (make_flag_path p.2 cfg ec rm) = true := by
        intro p hp
        rw [fsExists_set_flag, hflr p hp, Bool.or_true]
      have := ih _ hflr1 hokr
      refine ⟨this.1, ?_⟩
      rw [List.map_cons]
      show _ :: _ = _
      rw [this.2]

/-- C5: in a non-check mode, a step whose flag file exists is skipped iff
the always-run override is unset, the mode is not config/uninstall/
upgrade, and the step's idempotence is not Disabled; consequently running
`apply` twice with an unchanged step list invokes each Auto-idempotent
step at most once, while a Disabled step is invoked on both runs. -/
theorem apply_idempotency
    (P : String → Option HistoryData) (D : HistoryData → String)
    (env : List (String × String))
    (runner : List String → List (String × String) → Int)
    (cfg : ConfigData) (ec : EnvConfig) (rm cd now now2 : String) :
    (∀ (step : Step) (fs : FS) (flag_file : String) (always : Bool) (mode : Mode),
      modeIsCheckStr mode = false →
      fsExists fs flag_file = true →
      (check_flag_file step fs flag_file always mode = true ↔
        (always = false ∧ ¬ mode ∈ [Mode.CONFIG, Mode.UNINSTALL, Mode.UPGRADE] ∧
          step.idempotence ≠ Idempotence.Disabled))) ∧
    (∀ (steps : List Step) (fs : FS),
      (∀ s ∈ steps, (run_step env runner cd s).failed = false) →
      (agent_main_apply P D env runner cfg ec rm cd false now steps fs).failed = false ∧
      (agent_main_apply P D env runner cfg ec rm cd false now2 steps
        (agent_main_apply P D env runner cfg ec rm cd false now steps fs).fs).failed
          = false ∧
      (∀ (i : Nat) (s : Step), steps.get? i = some s →
        s.idempotence = Idempotence.Auto →
        List.count i
          ((agent_main_apply P D env runner cfg ec rm cd false now steps fs).invoked ++
            (agent_main_apply P D env runner cfg ec rm cd false now2 steps
              (agent_main_apply P D env runner cfg ec rm cd false now steps
                fs).fs).invoked) ≤ 1) ∧
      (∀ (i : Nat) (s : Step), steps.get? i = some s →
        s.idempotence = Idempotence.Disabled →
        i ∈ (agent_main_apply P D env runner cfg ec rm cd false now steps fs).invoked ∧
        i ∈ (agent_main_apply P D env runner cfg ec rm cd false now2 steps
          (agent_main_apply P D env runner cfg ec rm cd false now steps
            fs).fs).invoked)) := by
  constructor
  · intro step fs flag_file always mode _ hex
    unfold check_flag_file
    rw [if_pos hex]
    cases always
    · rw [if_neg (by simp)]
      by_cases hm : ([Mode.CONFIG, Mode.UNINSTALL, Mode.UPGRADE].contains mode) = true
      · rw [if_pos hm]
        have hmem : mode ∈ [Mode.CONFIG, Mode.UNINSTALL, Mode.UPGRADE] :=
          List.elem_iff.mp hm
        simp [hmem]
      · rw [if_neg hm]
        have hmem : ¬ mode ∈ [Mode.CONFIG, Mode.UNINSTALL, Mode.UPGRADE] :=
          fun hmm => hm (List.elem_iff.mpr hmm)
        by_cases hd : step.idempotence = Idempotence.Disabled
        · rw [if_pos hd]
          simp [hd]
        · rw [if_neg hd]
          simp [hmem, hd]
    · rw [if_pos rfl]
      simp
  · intro steps fs hok
    have hok' : ∀ p ∈ steps.enum, (run_step env runner cd p.2).failed = false :=
      fun p hp => hok p.2 (List.get?_mem (List.mk_mem_enum_iff_get?.mp (by
        exact (Prod.mk.eta (p := p)) ▸ hp)))
    show _ ∧ _ ∧ _ ∧ _
    have h1 := agent_main_loop_apply_success P D env runner cfg ec rm cd false now
      steps.enum (set_flag fs (get_flag_dir ec rm ++ "/START") "") hok'
    have hflags2 : ∀ p ∈ steps.enum,
        fsExists (set_flag
          (agent_main_apply P D env runner cfg ec rm cd false now steps fs).fs
          (get_flag_dir ec rm ++ "/START") "") (make_flag_path p.2 cfg ec rm) = true := by
      intro p hp
      rw [fsExists_set_flag]
      have := h1.2 p hp
      unfold agent_main_apply
      rw [this]
      exact Bool.or_true _
    have h2 := agent_main_loop_apply_all_flagged P D env runner cfg ec rm cd now2
      steps.enum (set_flag
        (agent_main_apply P D env runner cfg ec rm cd false now steps fs).fs
        (get_flag_dir ec rm ++ "/START") "") hflags2 hok'
    refine ⟨h1.1, h2.1, ?_, ?_⟩
    · intro i s hget hauto
      rw [List.count_append]
      have hc1 : List.count i
          (agent_main_apply P D env runner cfg ec rm cd false now steps fs).invoked ≤ 1 := by
        apply List.nodup_iff_count_le_one.mp
        · exact (agent_main_loop_apply_invoked_sublist P D env runner cfg ec rm cd
            false now steps.enum _).nodup
            (by rw [List.enum_map_fst]; exact List.nodup_range steps.length)
      have hc2 : List.count i
          (agent_main_apply P D env runner cfg ec rm cd false now2 steps
            (agent_main_apply P D env runner cfg ec rm cd false now steps
              fs).fs).invoked = 0 := by
        apply List.count_eq_zero.mpr
        show i ∉ (agent_main_loop P D env runner cfg ec rm cd Mode.APPLY false now2
          steps.enum _).invoked
        rw [h2.2]
        intro hmem
        rcases List.mem_map.mp hmem with ⟨p, hpf, hpe⟩
        have hpl := List.mem_filter.mp hpf
        have hpget : steps.get? p.1 = some p.2 :=
          List.mk_mem_enum_iff_get?.mp ((Prod.mk.eta (p := p)) ▸ hpl.1)
        rw [hpe] at hpget
        rw [hget] at hpget
        have hps : p.2 = s := (Option.some.inj hpget).symm
        have := hpl.2
        rw [hps, hauto] at this
        exact absurd (of_decide_eq_true this) (by simp)
      rw [hc2]
      omega
    · intro i s hget hdis
      have henum : (i, s) ∈ steps.enum := List.mk_mem_enum_iff_get?.mpr hget
      constructor
      · exact agent_main_loop_apply_disabled_invoked P D env runner cfg ec rm cd
          false now steps.enum _ hok' (i, s) henum hdis
      · show i ∈ (agent_main_loop P D env runner cfg ec rm cd Mode.APPLY false now2
          steps.enum _).invoked
        rw [h2.2]
        exact List.mem_map.mpr ⟨(i, s),
          List.mem_filter.mpr ⟨henum, by simp [hdis]⟩, rfl⟩

/-- C5 witness: one Auto step and one Disabled step, always succeeding —
across two `apply` runs the Auto step is invoked at most once and the
Disabled step is invoked in both runs. -/
theorem apply_idempotency_witness :
    List.count 0
      ((agent_main_apply (fun _ => none) (fun _ => "") [] (fun _ _ => 0)
          ⟨"p", "1"⟩ defaultEnvConfig "" "c" false "t"
          [mkStep "a.sh", { mkStep "b.sh" with idempotence := Idempotence.Disabled }]
          fsEmpty).invoked ++
        (agent_main_apply (fun _ => none) (fun _ => "") [] (fun _ _ => 0)
          ⟨"p", "1"⟩ defaultEnvConfig "" "c" false "u"
          [mkStep "a.sh", { mkStep "b.sh" with idempotence := Idempotence.Disabled }]
          (agent_main_apply (fun _ => none) (fun _ => "") [] (fun _ _ => 0)
            ⟨"p", "1"⟩ defaultEnvConfig "" "c" false "t"
            [mkStep "a.sh", { mkStep "b.sh" with idempotence := Idempotence.Disabled }]
            fsEmpty).fs).invoked) ≤ 1 :=
  ((apply_idempotency (fun _ => none) (fun _ => "") [] (fun _ _ => 0)
    ⟨"p", "1"⟩ defaultEnvConfig "" "c" "t" "u").2
    [mkStep "a.sh", { mkStep "b.sh" with idempotence := Idempotence.Disabled }]
    fsEmpty (by decide)).2.2.1 0 (mkStep "a.sh") (by decide) (by decide)

/-! ## Decoders for the flag-path marker (C9)

The marker `base64(utf8(f"{arguments}_{returncodes}"))` is shown
injective by exhibiting decoders and proving encode-decode roundtrips. -/

/-- Decimal digit values of `n`, most significant first. -/
def natDigitsAux : Nat → Nat → List Nat
  | 0, _ => []
  | fuel + 1, n =>
    if n < 10 then [n] else natDigitsAux fuel (n / 10) ++ [n % 10]

theorem natDigitsAux_fuel_irrelevant (fuel fuel' n : Nat)
    (h : n < fuel) (h' : n < fuel') :
    natDigitsAux fuel n = natDigitsAux fuel' n := by
  induction n using Nat.strong_induction_on generalizing fuel fuel' with
  | _ n ih =>
    match fuel, fuel' with
    | f + 1, f' + 1 =>
      simp only [natDigitsAux]
      by_cases h10 : n < 10
      · rw [if_pos h10, if_pos h10]
      · rw [if_neg h10, if_neg h10, ih (n / 10) (by omega) f f' (by omega) (by omega)]

theorem natReprAux_eq_digits (fuel n : Nat) :
    natReprAux fuel n = (natDigitsAux fuel n).map (fun d => Char.ofNat (48 + d)) := by
  induction fuel generalizing n with
  | zero => rfl
  | succ f ih =>
    simp only [natReprAux, natDigitsAux]
    by_cases h10 : n < 10
    · rw [if_pos h10, if_pos h10]
      rfl
    · rw [if_neg h10, if_neg h10, List.map_append, ih]
      rfl

theorem natDigitsAux_lt_ten (fuel n : Nat) :
    ∀ d ∈ natDigitsAux fuel n, d < 10 := by
  induction fuel generalizing n with
  | zero =>
    intro d hd
    cases hd
  | succ f ih =>
    intro d hd
    simp only [natDigitsAux] at hd
    by_cases h10 : n < 10
    · rw [if_pos h10] at hd
      rcases List.mem_singleton.mp hd with rfl
      exact h10
    · rw [if_neg h10] at hd
      rcases List.mem_append.mp hd with hd | hd
      · exact ih _ d hd
      · rcases List.mem_singleton.mp hd with rfl
        omega

theorem natDigitsAux_ne_nil (fuel n : Nat) (h : n < fuel) :
    natDigitsAux fuel n ≠ [] := by
  match fuel with
  | f + 1 =>
    simp only [natDigitsAux]
    by_cases h10 : n < 10
    · rw [if_pos h10]
      simp
    · rw [if_neg h10]
      simp

theorem digitsVal_natDigitsAux (fuel n : Nat) (h : n < fuel) : ∀ acc,
    List.foldl (fun a d => a * 10 + d) acc (natDigitsAux fuel n) =
      acc * 10 ^ (natDigitsAux fuel n).length + n := by
  induction fuel generalizing n with
  | zero => omega
  | succ f ih =>
    intro acc
    simp only [natDigitsAux]
    by_cases h10 : n < 10
    · rw [if_pos h10]
      simp [List.foldl]
    · rw [if_neg h10]
      rw [List.foldl_append, ih (n / 10) (by omega) acc]
      simp only [List.foldl, List.length_append, List.length_singleton]
      rw [pow_succ]
      have : n / 10 * 10 + n % 10 = n := by omega
      ring_nf
      omega

/-- Greedy digit-char scan: the digit values read and the remainder. -/
def parseDigits : List Char → List Nat × List Char
  | [] => ([], [])
  | c :: rest =>
    if 48 ≤ c.toNat ∧ c.toNat ≤ 57 then
      ((c.toNat - 48) :: (parseDigits rest).1, (parseDigits rest).2)
    else ([], c :: rest)

def digitsVal (ds : List Nat) : Nat := ds.foldl (fun a d => a * 10 + d) 0

def parseNat (cs : List Char) : Option (Nat × List Char) :=
  if (parseDigits cs).1 = [] then none
  else some (digitsVal (parseDigits cs).1, (parseDigits cs).2)

def parseInt : List Char → Option (Int × List Char)
  | [] => none
  | c :: r =>
    if c = '-' then (parseNat r).map (fun pr => (-(pr.1 : Int), pr.2))
    else (parseNat (c :: r)).map (fun pr => ((pr.1 : Int), pr.2))

/-- The remainder does not begin with a decimal digit char. -/
def headNotDigit : List Char → Prop
  | [] => True
  | c :: _ => ¬ (48 ≤ c.toNat ∧ c.toNat ≤ 57)

theorem parseDigits_exact (ds : List Nat) (hds : ∀ d ∈ ds, d < 10)
    (rest : List Char) (hrest : headNotDigit rest) :
    parseDigits ((ds.map (fun d => Char.ofNat (48 + d))) ++ rest) = (ds, rest) := by
  induction ds with
  | nil =>
    cases rest with
    | nil => rfl
    | cons c r =>
      simp only [List.map_nil, List.nil_append, parseDigits]
      rw [if_neg hrest]
  | cons d ds ih =>
    have hd : d < 10 := hds d (List.mem_cons_self _ _)
    have htn : (Char.ofNat (48 + d)).toNat = 48 + d :=
      charToNat_ofNat_small _ (by omega)
    simp only [List.map_cons, List.cons_append, parseDigits]
    rw [if_pos (by rw [htn]; omega)]
    simp only [List.append_eq]
    rw [ih (fun x hx => hds x (List.mem_cons_of_mem _ hx)), htn]
    have h2 : 48 + d - 48 = d := by omega
    rw [h2]

theorem parseNat_natReprChars (n : Nat) (rest : List Char)
    (hrest : headNotDigit rest) :
    parseNat (natReprChars n ++ rest) = some (n, rest) := by
  unfold natReprChars parseNat
  rw [natReprAux_eq_digits,
    parseDigits_exact _ (natDigitsAux_lt_ten _ n) rest hrest]
  rw [if_neg (by simpa using natDigitsAux_ne_nil (n + 1) n (Nat.lt_succ_self n))]
  unfold digitsVal
  rw [digitsVal_natDigitsAux (n + 1) n (Nat.lt_succ_self n) 0]
  simp

theorem natReprChars_head_digit (n : Nat) :
    ∃ d tail, natReprChars n = Char.ofNat (48 + d) :: tail ∧ d < 10 := by
  unfold natReprChars
  rw [natReprAux_eq_digits]
  cases hd : natDigitsAux (n + 1) n with
  | nil => exact absurd hd (natDigitsAux_ne_nil (n + 1) n (Nat.lt_succ_self n))
  | cons d tail =>
    refine ⟨d, tail.map (fun d => Char.ofNat (48 + d)), rfl, ?_⟩
    exact natDigitsAux_lt_ten (n + 1) n d (hd ▸ List.mem_cons_self _ _)

theorem parseInt_intReprChars (i : Int) (rest : List Char)
    (hrest : headNotDigit rest) :
    parseInt (intReprChars i ++ rest) = some (i, rest) := by
  cases i with
  | ofNat n =>
    show parseInt (natReprChars n ++ rest) = _
    obtain ⟨d, tail, heq, hd⟩ := natReprChars_head_digit n
    rw [heq]
    show parseInt (Char.ofNat (48 + d) :: (tail ++ rest)) = _
    simp only [parseInt]
    rw [if_neg (by
      intro hc
      have h1 := charToNat_ofNat_small (48 + d) (by omega)
      rw [hc] at h1
      have h2 : ('-' : Char).toNat = 45 := by decide
      omega)]
    rw [show Char.ofNat (48 + d) :: (tail ++ rest) = natReprChars n ++ rest by
      rw [heq]; rfl]
    rw [parseNat_natReprChars n rest hrest]
    rfl
  | negSucc n =>
    show parseInt ('-' :: (natReprChars (n + 1) ++ rest)) = _
    simp only [parseInt]
    rw [if_pos trivial, parseNat_natReprChars (n + 1) rest hrest]
    show some (-((n + 1 : Nat) : Int), rest) = some (Int.negSucc n, rest)
    rw [Int.negSucc_eq]
    rfl

theorem charOfNat_toNat (c : Char) : Char.ofNat c.toNat = c := by
  apply charToNat_inj
  exact charToNat_ofNat c.toNat c.valid

def hexVal (c : Char) : Nat := if c.toNat ≤ 57 then c.toNat - 48 else c.toNat - 87

theorem hexVal_hexDigitChar (m : Nat) (h : m < 16) : hexVal (hexDigitChar m) = m := by
  unfold hexDigitChar
  by_cases h10 : m < 10
  · rw [if_pos h10]
    unfold hexVal
    rw [charToNat_ofNat_small _ (by omega)]
    rw [if_pos (by omega)]
    omega
  · rw [if_neg h10]
    unfold hexVal
    rw [charToNat_ofNat_small _ (by omega)]
    rw [if_neg (by omega)]
    omega

mutual

/-- Decoder for the body of a Python single-string `repr` with quote
char `q` (`parseEscapeBody` handles the text after a backslash):
returns the decoded chars and the remainder after the closing quote. -/
def parsePyStrBody (q : Char) : List Char → Option (List Char × List Char)
  | [] => none
  | c :: rest =>
    if c = q then some ([], rest)
    else if c = '\\' then parseEscapeBody q rest
    else (parsePyStrBody q rest).map (fun pr => (c :: pr.1, pr.2))

def parseEscapeBody (q : Char) : List Char → Option (List Char × List Char)
  | [] => none
  | '\\' :: r => (parsePyStrBody q r).map (fun pr => ('\\' :: pr.1, pr.2))
  | 'n' :: r => (parsePyStrBody q r).map (fun pr => ('\n' :: pr.1, pr.2))
  | 'r' :: r => (parsePyStrBody q r).map (fun pr => ('\r' :: pr.1, pr.2))
  | 't' :: r => (parsePyStrBody q r).map (fun pr => ('\t' :: pr.1, pr.2))
  | 'x' :: d1 :: d2 :: r =>
    (parsePyStrBody q r).map (fun pr =>
      (Char.ofNat (hexVal d1 * 16 + hexVal d2) :: pr.1, pr.2))
  | c2 :: r =>
    if c2 = q then (parsePyStrBody q r).map (fun pr => (q :: pr.1, pr.2))
    else none

end

theorem pyQuote_cases (l : List Char) : pyQuote l = '\'' ∨ pyQuote l = '\"' := by
  unfold pyQuote
  by_cases h : (l.contains '\'' && ! l.contains '\"') = true
  · rw [if_pos h]
    exact Or.inr rfl
  · rw [if_neg h]
    exact Or.inl rfl

theorem parsePyStrBody_roundtrip (q : Char) (hq : q = '\'' ∨ q = '\"')
    (s : List Char) (rest : List Char) :
    parsePyStrBody q (s.flatMap (pyEscapeChar q) ++ q :: rest) = some (s, rest) := by
  have hq_ne_bs : ¬ q = '\\' := by rcases hq with hq | hq <;> subst hq <;> decide
  have hn_ne_q : ¬ ('\n' : Char) = q := by rcases hq with hq | hq <;> subst hq <;> decide
  have hr_ne_q : ¬ ('\r' : Char) = q := by rcases hq with hq | hq <;> subst hq <;> decide
  have ht_ne_q : ¬ ('\t' : Char) = q := by rcases hq with hq | hq <;> subst hq <;> decide
  have hstep_bs : ∀ l, parsePyStrBody q ('\\' :: '\\' :: l) =
      (parsePyStrBody q l).map (fun pr => ('\\' :: pr.1, pr.2)) := by
    rcases hq with hq | hq <;> subst hq <;> intro l <;> simp [parsePyStrBody, parseEscapeBody]
  have hstep_n : ∀ l, parsePyStrBody q ('\\' :: 'n' :: l) =
      (parsePyStrBody q l).map (fun pr => ('\n' :: pr.1, pr.2)) := by
    rcases hq with hq | hq <;> subst hq <;> intro l <;> simp [parsePyStrBody, parseEscapeBody]
  have hstep_r : ∀ l, parsePyStrBody q ('\\' :: 'r' :: l) =
      (parsePyStrBody q l).map (fun pr => ('\r' :: pr.1, pr.2)) := by
    rcases hq with hq | hq <;> subst hq <;> intro l <;> simp [parsePyStrBody, parseEscapeBody]
  have hstep_t : ∀ l, parsePyStrBody q ('\\' :: 't' :: l) =
      (parsePyStrBody q l).map (fun pr => ('\t' :: pr.1, pr.2)) := by
    rcases hq with hq | hq <;> subst hq <;> intro l <;> simp [parsePyStrBody, parseEscapeBody]
  have hstep_x : ∀ d1 d2 l, parsePyStrBody q ('\\' :: 'x' :: d1 :: d2 :: l) =
      (parsePyStrBody q l).map (fun pr =>
        (Char.ofNat (hexVal d1 * 16 + hexVal d2) :: pr.1, pr.2)) := by
    rcases hq with hq | hq <;> subst hq <;> intro d1 d2 l <;> simp [parsePyStrBody, parseEscapeBody]
  have hstep_q : ∀ l, parsePyStrBody q ('\\' :: q :: l) =
      (parsePyStrBody q l).map (fun pr => (q :: pr.1, pr.2)) := by
    rcases hq with hq | hq <;> subst hq <;> intro l <;> simp [parsePyStrBody, parseEscapeBody]
  have hstep_raw : ∀ c l, ¬ c = q → ¬ c = '\\' →
      parsePyStrBody q (c :: l) = (parsePyStrBody q l).map (fun pr => (c :: pr.1, pr.2)) := by
    intro c l hc1 hc2
    simp only [parsePyStrBody]
    rw [if_neg hc1, if_neg hc2]
  induction s with
  | nil =>
    show parsePyStrBody q (q :: rest) = some ([], rest)
    simp only [parsePyStrBody]
    rw [if_pos trivial]
  | cons c s ih =>
    rw [List.flatMap_cons, List.append_assoc]
    by_cases h1 : c = '\\'
    · subst h1
      rw [show pyEscapeChar q '\\' = ['\\', '\\'] from by simp [pyEscapeChar]]
      rw [List.cons_append, List.cons_append, List.nil_append, hstep_bs, ih]
      rfl
    · by_cases h2 : c = q
      · subst h2
        rw [show pyEscapeChar c c = ['\\', c] from by
          simp [pyEscapeChar, hq_ne_bs]]
        rw [List.cons_append, List.cons_append, List.nil_append, hstep_q, ih]
        rfl
      · by_cases h3 : c = '\n'
        · subst h3
          rw [show pyEscapeChar q '\n' = ['\\', 'n'] from by
            simp [pyEscapeChar, hn_ne_q]]
          rw [List.cons_append, List.cons_append, List.nil_append, hstep_n, ih]
          rfl
        · by_cases h4 : c = '\r'
          · subst h4
            rw [show pyEscapeChar q '\r' = ['\\', 'r'] from by
              simp [pyEscapeChar, hr_ne_q]]
            rw [List.cons_append, List.cons_append, List.nil_append, hstep_r, ih]
            rfl
          · by_cases h5 : c = '\t'
            · subst h5
              rw [show pyEscapeChar q '\t' = ['\\', 't'] from by
                simp [pyEscapeChar, ht_ne_q]]
              rw [List.cons_append, List.cons_append, List.nil_append, hstep_t, ih]
              rfl
            · by_cases h6 : pyPrintable c = true
              · rw [show pyEscapeChar q c = [c] from by
                  simp [pyEscapeChar, h1, h2, h3, h4, h5, h6]]
                rw [List.cons_append, List.nil_append, hstep_raw c _ h2 h1, ih]
                rfl
              · have hsmall : c.toNat < 32 ∨ c.toNat = 127 := by
                  have := Bool.eq_false_iff.mpr h6
                  unfold pyPrintable at this
                  simp only [Bool.and_eq_false_iff] at this
                  rcases this with hlt | hne
                  · left
                    simpa using Nat.lt_of_not_le (by simpa using hlt)
                  · right
                    simpa using hne
                rw [show pyEscapeChar q c =
                    ['\\', 'x', hexDigitChar (c.toNat / 16), hexDigitChar (c.toNat % 16)]
                  from by simp [pyEscapeChar, h1, h2, h3, h4, h5, h6]]
                rw [List.cons_append, List.cons_append, List.cons_append,
                  List.cons_append, List.nil_append, hstep_x,
                  hexVal_hexDigitChar _ (by omega), hexVal_hexDigitChar _ (by omega)]
                rw [show c.toNat / 16 * 16 + c.toNat % 16 = c.toNat from by omega,
                  charOfNat_toNat, ih]
                rfl

/-- Decoder for one quoted Python string `repr`. -/
def parseQuotedStr : List Char → Option (List Char × List Char)
  | [] => none
  | c :: rest => if c = '\'' ∨ c = '\"' then parsePyStrBody c rest else none

theorem parseQuotedStr_roundtrip (s : String) (rest : List Char) :
    parseQuotedStr (pyReprStrChars s ++ rest) = some (s.data, rest) := by
  show parseQuotedStr
    ((pyQuote s.data :: s.data.flatMap (pyEscapeChar (pyQuote s.data)) ++
      [pyQuote s.data]) ++ rest) = some (s.data, rest)
  rw [show (pyQuote s.data :: s.data.flatMap (pyEscapeChar (pyQuote s.data)) ++
      [pyQuote s.data]) ++ rest =
    pyQuote s.data ::
      (s.data.flatMap (pyEscapeChar (pyQuote s.data)) ++ pyQuote s.data :: rest) from by
    simp]
  simp only [parseQuotedStr]
  rw [if_pos (pyQuote_cases s.data)]
  exact parsePyStrBody_roundtrip _ (pyQuote_cases s.data) s.data rest

theorem dataAsString (s : String) : s.data.asString = s :=
  stringDataInj _ _ rfl

/-- Decoder for the comma-separated items of a `list[str]` `repr`
(everything after the opening `[` of a non-empty list), fuel-bounded. -/
def parseStrItems : Nat → List Char → Option (List String × List Char)
  | 0, _ => none
  | fuel + 1, cs =>
    match parseQuotedStr cs with
    | none => none
    | some pr =>
      match pr.2 with
      | ']' :: r => some ([pr.1.asString], r)
      | ',' :: ' ' :: r =>
        (parseStrItems fuel r).map (fun pr2 => (pr.1.asString :: pr2.1, pr2.2))
      | _ => none

/-- Decoder for a `list[str]` `repr`. -/
def parsePyStrList (cs : List Char) : Option (List String × List Char) :=
  match cs with
  | '[' :: r =>
    match r with
    | c :: r2 => if c = ']' then some ([], r2) else parseStrItems (r.length + 1) r
    | [] => none
  | _ => none

/-- Decoder for the comma-separated items of a `list[int]` `repr`. -/
def parseIntItems : Nat → List Char → Option (List Int × List Char)
  | 0, _ => none
  | fuel + 1, cs =>
    match parseInt cs with
    | none => none
    | some pr =>
      match pr.2 with
      | ']' :: r => some ([pr.1], r)
      | ',' :: ' ' :: r =>
        (parseIntItems fuel r).map (fun pr2 => (pr.1 :: pr2.1, pr2.2))
      | _ => none

/-- Decoder for a `list[int]` `repr`. -/
def parsePyIntList (cs : List Char) : Option (List Int × List Char) :=
  match cs with
  | '[' :: r =>
    match r with
    | c :: r2 => if c = ']' then some ([], r2) else parseIntItems (r.length + 1) r
    | [] => none
  | _ => none

theorem parseStrItems_roundtrip (l : List String) (hne : l ≠ []) (rest : List Char) :
    ∀ fuel, l.length ≤ fuel →
    parseStrItems fuel (commaSep (l.map pyReprStrChars) ++ ']' :: rest) =
      some (l, rest) := by
  induction l with
  | nil => exact absurd rfl hne
  | cons x t ih =>
    intro fuel hfuel
    match fuel with
    | f + 1 =>
      cases t with
      | nil =>
        show parseStrItems (f + 1) (pyReprStrChars x ++ ']' :: rest) = some ([x], rest)
        simp only [parseStrItems]
        rw [parseQuotedStr_roundtrip x (']' :: rest)]
        simp [dataAsString]
      | cons y t2 =>
        show parseStrItems (f + 1)
          ((pyReprStrChars x ++ ',' :: ' ' :: commaSep ((y :: t2).map pyReprStrChars)) ++
            ']' :: rest) = some (x :: y :: t2, rest)
        rw [List.append_assoc]
        simp only [parseStrItems, List.cons_append]
        rw [parseQuotedStr_roundtrip x
          (',' :: ' ' :: (commaSep ((y :: t2).map pyReprStrChars) ++ ']' :: rest))]
        have hih := ih (by simp) f (by
          simp only [List.length_cons] at hfuel ⊢
          omega)
        simp only [List.cons_append, List.map_cons] at hih ⊢
        simp [hih, dataAsString]

theorem commaSep_reprStr_length (l : List String) :
    l.length ≤ (commaSep (l.map pyReprStrChars)).length + 1 := by
  induction l with
  | nil => simp
  | cons x t ih =>
    cases t with
    | nil => simp
    | cons y t2 =>
      show (x :: y :: t2).length ≤
        (pyReprStrChars x ++ ',' :: ' ' :: commaSep ((y :: t2).map pyReprStrChars)).length + 1
      simp only [List.length_cons, List.length_append] at ih ⊢
      omega

theorem parsePyStrList_roundtrip (l : List String) (rest : List Char) :
    parsePyStrList (pyReprStrList l ++ rest) = some (l, rest) := by
  cases l with
  | nil =>
    show parsePyStrList ('[' :: ']' :: rest) = some ([], rest)
    simp [parsePyStrList]
  | cons x t =>
    show parsePyStrList
      (('[' :: commaSep ((x :: t).map pyReprStrChars) ++ [']']) ++ rest) = _
    have hx : ∃ c body, pyReprStrChars x = c :: body ∧ ¬ c = ']' := by
      refine ⟨pyQuote x.data, _, rfl, ?_⟩
      rcases pyQuote_cases x.data with hq | hq <;> rw [hq] <;> decide
    obtain ⟨c, body, hcb, hcne⟩ := hx
    have hshape : ('[' :: commaSep ((x :: t).map pyReprStrChars) ++ [']']) ++ rest =
        '[' :: (commaSep ((x :: t).map pyReprStrChars) ++ ']' :: rest) := by
      simp
    rw [hshape]
    have hhead : ∃ r2, commaSep ((x :: t).map pyReprStrChars) ++ ']' :: rest = c :: r2 := by
      cases t with
      | nil =>
        refine ⟨body ++ ']' :: rest, ?_⟩
        show pyReprStrChars x ++ ']' :: rest = c :: (body ++ ']' :: rest)
        rw [hcb]
        rfl
      | cons y t2 =>
        refine ⟨body ++ ',' :: ' ' :: commaSep ((y :: t2).map pyReprStrChars) ++
          ']' :: rest, ?_⟩
        show (pyReprStrChars x ++ ',' :: ' ' :: commaSep ((y :: t2).map pyReprStrChars)) ++
          ']' :: rest = _
        rw [hcb]
        simp
    obtain ⟨r2, hr2⟩ := hhead
    rw [hr2]
    show parsePyStrList ('[' :: c :: r2) = some (x :: t, rest)
    simp only [parsePyStrList]
    rw [if_neg hcne, ← hr2]
    apply parseStrItems_roundtrip (x :: t) (by simp) rest
    have h1 := commaSep_reprStr_length (x :: t)
    have h2 : (commaSep ((x :: t).map pyReprStrChars) ++ ']' :: rest).length =
        (commaSep ((x :: t).map pyReprStrChars)).length + 1 + rest.length := by
      simp [List.length_append]
      omega
    omega

theorem parseIntItems_roundtrip (l : List Int) (hne : l ≠ []) (rest : List Char)
    (_hrest : headNotDigit rest) :
    ∀ fuel, l.length ≤ fuel →
    parseIntItems fuel (commaSep (l.map intReprChars) ++ ']' :: rest) =
      some (l, rest) := by
  induction l with
  | nil => exact absurd rfl hne
  | cons x t ih =>
    intro fuel hfuel
    match fuel with
    | f + 1 =>
      cases t with
      | nil =>
        show parseIntItems (f + 1) (intReprChars x ++ ']' :: rest) = some ([x], rest)
        simp only [parseIntItems]
        rw [parseInt_intReprChars x (']' :: rest) (by
          show ¬ (48 ≤ (']' : Char).toNat ∧ (']' : Char).toNat ≤ 57)
          decide)]
        simp
      | cons y t2 =>
        show parseIntItems (f + 1)
          ((intReprChars x ++ ',' :: ' ' :: commaSep ((y :: t2).map intReprChars)) ++
            ']' :: rest) = some (x :: y :: t2, rest)
        rw [List.append_assoc]
        simp only [parseIntItems, List.cons_append]
        rw [parseInt_intReprChars x
          (',' :: ' ' :: (commaSep ((y :: t2).map intReprChars) ++ ']' :: rest)) (by
          show ¬ (48 ≤ (',' : Char).toNat ∧ (',' : Char).toNat ≤ 57)
          decide)]
        have hih := ih (by simp) f (by
          simp only [List.length_cons] at hfuel ⊢
          omega)
        simp only [List.cons_append, List.map_cons] at hih ⊢
        simp [hih]

theorem commaSep_reprInt_length (l : List Int) :
    l.length ≤ (commaSep (l.map intReprChars)).length + 1 := by
  induction l with
  | nil => simp
  | cons x t ih =>
    cases t with
    | nil => simp
    | cons y t2 =>
      show (x :: y :: t2).length ≤
        (intReprChars x ++ ',' :: ' ' :: commaSep ((y :: t2).map intReprChars)).length + 1
      simp only [List.length_cons, List.length_append] at ih ⊢
      omega

theorem intReprChars_head_ne_rbracket (i : Int) :
    ∃ c tail, intReprChars i = c :: tail ∧ ¬ c = ']' := by
  cases i with
  | ofNat n =>
    obtain ⟨d, tail, heq, hd⟩ := natReprChars_head_digit n
    refine ⟨Char.ofNat (48 + d), tail, heq, ?_⟩
    intro hc
    have h1 := charToNat_ofNat_small (48 + d) (by omega)
    rw [hc] at h1
    have h2 : (']' : Char).toNat = 93 := by decide
    omega
  | negSucc n =>
    exact ⟨'-', natReprChars (n + 1), rfl, by decide⟩

theorem parsePyIntList_roundtrip (l : List Int) (rest : List Char)
    (hrest : headNotDigit rest) :
    parsePyIntList (pyReprIntList l ++ rest) = some (l, rest) := by
  cases l with
  | nil =>
    show parsePyIntList ('[' :: ']' :: rest) = some ([], rest)
    simp [parsePyIntList]
  | cons x t =>
    show parsePyIntList
      (('[' :: commaSep ((x :: t).map intReprChars) ++ [']']) ++ rest) = _
    obtain ⟨c, body, hcb, hcne⟩ := intReprChars_head_ne_rbracket x
    have hshape : ('[' :: commaSep ((x :: t).map intReprChars) ++ [']']) ++ rest =
        '[' :: (commaSep ((x :: t).map intReprChars) ++ ']' :: rest) := by
      simp
    rw [hshape]
    have hhead : ∃ r2, commaSep ((x :: t).map intReprChars) ++ ']' :: rest = c :: r2 := by
      cases t with
      | nil =>
        refine ⟨body ++ ']' :: rest, ?_⟩
        show intReprChars x ++ ']' :: rest = c :: (body ++ ']' :: rest)
        rw [hcb]
        rfl
      | cons y t2 =>
        refine ⟨body ++ ',' :: ' ' :: commaSep ((y :: t2).map intReprChars) ++
          ']' :: rest, ?_⟩
        show (intReprChars x ++ ',' :: ' ' :: commaSep ((y :: t2).map intReprChars)) ++
          ']' :: rest = _
        rw [hcb]
        simp
    obtain ⟨r2, hr2⟩ := hhead
    rw [hr2]
    show parsePyIntList ('[' :: c :: r2) = some (x :: t, rest)
    simp only [parsePyIntList]
    rw [if_neg hcne, ← hr2]
    apply parseIntItems_roundtrip (x :: t) (by simp) rest hrest
    have h1 := commaSep_reprInt_length (x :: t)
    have h2 : (commaSep ((x :: t).map intReprChars) ++ ']' :: rest).length =
        (commaSep ((x :: t).map intReprChars)).length + 1 + rest.length := by
      simp [List.length_append]
      omega
    omega

/-- Decoder for `f"{arguments}_{returncodes}"`. -/
def parseArgsRcs (cs : List Char) : Option (List String × List Int) :=
  match parsePyStrList cs with
  | none => none
  | some pr =>
    match pr.2 with
    | '_' :: r2 =>
      match parsePyIntList r2 with
      | none => none
      | some pr2 => if pr2.2 = [] then some (pr.1, pr2.1) else none
    | _ => none

theorem parseArgsRcs_roundtrip (args : List String) (rcs : List Int) :
    parseArgsRcs (argsRcsRepr args rcs) = some (args, rcs) := by
  unfold argsRcsRepr
  simp only [parseArgsRcs]
  rw [parsePyStrList_roundtrip args ('_' :: pyReprIntList rcs)]
  show (match parsePyIntList (pyReprIntList rcs) with
    | none => none
    | some pr2 => if pr2.2 = [] then some (args, pr2.1) else none) = some (args, rcs)
  rw [show pyReprIntList rcs = pyReprIntList rcs ++ [] from (List.append_nil _).symm,
    parsePyIntList_roundtrip rcs [] trivial]
  rfl

theorem argsRcsRepr_inj (a1 a2 : List String) (r1 r2 : List Int)
    (h : argsRcsRepr a1 r1 = argsRcsRepr a2 r2) : a1 = a2 ∧ r1 = r2 := by
  have h1 := parseArgsRcs_roundtrip a1 r1
  rw [h, parseArgsRcs_roundtrip a2 r2] at h1
  have h2 := Option.some.inj h1
  exact ⟨(congrArg Prod.fst h2).symm, (congrArg Prod.snd h2).symm⟩

mutual

/-- UTF-8 decoder: byte values back to code points (`utf8DecN` read the
continuation bytes of an N-byte sequence). -/
def utf8Decode : List Nat → Option (List Nat)
  | [] => some []
  | b :: rest =>
    if b < 128 then (utf8Decode rest).map (b :: ·)
    else if b < 224 then utf8Dec2 b rest
    else if b < 240 then utf8Dec3 b rest
    else utf8Dec4 b rest

def utf8Dec2 (b : Nat) : List Nat → Option (List Nat)
  | b2 :: r => (utf8Decode r).map (((b - 192) * 64 + (b2 - 128)) :: ·)
  | [] => none

def utf8Dec3 (b : Nat) : List Nat → Option (List Nat)
  | b2 :: b3 :: r =>
    (utf8Decode r).map (((b - 224) * 4096 + (b2 - 128) * 64 + (b3 - 128)) :: ·)
  | _ => none

def utf8Dec4 (b : Nat) : List Nat → Option (List Nat)
  | b2 :: b3 :: b4 :: r =>
    (utf8Decode r).map
      (((b - 240) * 262144 + (b2 - 128) * 4096 + (b3 - 128) * 64 + (b4 - 128)) :: ·)
  | _ => none

end

theorem utf8Decode_cons (b : Nat) (rest : List Nat) :
    utf8Decode (b :: rest) =
      if b < 128 then (utf8Decode rest).map (b :: ·)
      else if b < 224 then utf8Dec2 b rest
      else if b < 240 then utf8Dec3 b rest
      else utf8Dec4 b rest := by
  simp only [utf8Decode]

theorem utf8Dec2_cons (b b2 : Nat) (r : List Nat) :
    utf8Dec2 b (b2 :: r) = (utf8Decode r).map (((b - 192) * 64 + (b2 - 128)) :: ·) := by
  simp only [utf8Dec2]

theorem utf8Dec3_cons (b b2 b3 : Nat) (r : List Nat) :
    utf8Dec3 b (b2 :: b3 :: r) =
      (utf8Decode r).map (((b - 224) * 4096 + (b2 - 128) * 64 + (b3 - 128)) :: ·) := by
  simp only [utf8Dec3]

theorem utf8Dec4_cons (b b2 b3 b4 : Nat) (r : List Nat) :
    utf8Dec4 b (b2 :: b3 :: b4 :: r) =
      (utf8Decode r).map
        (((b - 240) * 262144 + (b2 - 128) * 4096 + (b3 - 128) * 64 + (b4 - 128)) :: ·) := by
  simp only [utf8Dec4]

theorem utf8Decode_utf8Char (n : Nat) (hn : n < 1114112) (tail : List Nat) :
    utf8Decode (utf8Char n ++ tail) = (utf8Decode tail).map (n :: ·) := by
  unfold utf8Char
  by_cases h1 : n < 128
  · rw [if_pos h1]
    show utf8Decode (n :: tail) = _
    rw [utf8Decode_cons, if_pos h1]
  · rw [if_neg h1]
    by_cases h2 : n < 2048
    · rw [if_pos h2]
      show utf8Decode ((192 + n / 64) :: (128 + n % 64) :: tail) = _
      rw [utf8Decode_cons, if_neg (by omega), if_pos (by omega), utf8Dec2_cons]
      have harith : (192 + n / 64 - 192) * 64 + (128 + n % 64 - 128) = n := by omega
      rw [harith]
    · rw [if_neg h2]
      by_cases h3 : n < 65536
      · rw [if_pos h3]
        show utf8Decode
          ((224 + n / 4096) :: (128 + n / 64 % 64) :: (128 + n % 64) :: tail) = _
        rw [utf8Decode_cons, if_neg (by omega), if_neg (by omega), if_pos (by omega),
          utf8Dec3_cons]
        have harith : (224 + n / 4096 - 224) * 4096 + (128 + n / 64 % 64 - 128) * 64 +
            (128 + n % 64 - 128) = n := by omega
        rw [harith]
      · rw [if_neg h3]
        show utf8Decode ((240 + n / 262144) :: (128 + n / 4096 % 64) ::
          (128 + n / 64 % 64) :: (128 + n % 64) :: tail) = _
        rw [utf8Decode_cons, if_neg (by omega), if_neg (by omega), if_neg (by omega),
          utf8Dec4_cons]
        have harith : (240 + n / 262144 - 240) * 262144 + (128 + n / 4096 % 64 - 128) * 4096 +
            (128 + n / 64 % 64 - 128) * 64 + (128 + n % 64 - 128) = n := by omega
        rw [harith]

theorem utf8Decode_utf8Encode (cs : List Char) :
    utf8Decode (utf8Encode cs) = some (cs.map Char.toNat) := by
  induction cs with
  | nil => rfl
  | cons c rest ih =>
    show utf8Decode (utf8Char c.toNat ++ utf8Encode rest) = _
    rw [utf8Decode_utf8Char c.toNat (charToNat_lt c), ih]
    rfl

theorem map_toNat_inj (l1 l2 : List Char) (h : l1.map Char.toNat = l2.map Char.toNat) :
    l1 = l2 := by
  induction l1 generalizing l2 with
  | nil =>
    cases l2 with
    | nil => rfl
    | cons c t => exact absurd h (by simp)
  | cons c t ih =>
    cases l2 with
    | nil => exact absurd h (by simp)
    | cons c2 t2 =>
      simp only [List.map_cons, List.cons.injEq] at h
      exact List.cons_eq_cons.mpr ⟨charToNat_inj c c2 h.1, ih t2 h.2⟩

theorem utf8Encode_inj (l1 l2 : List Char) (h : utf8Encode l1 = utf8Encode l2) :
    l1 = l2 := by
  have h1 := utf8Decode_utf8Encode l1
  rw [h, utf8Decode_utf8Encode l2] at h1
  exact (map_toNat_inj l2 l1 (Option.some.inj h1)).symm

theorem utf8Char_bytes_lt (n : Nat) (hn : n < 1114112) :
    ∀ b ∈ utf8Char n, b < 256 := by
  intro b hb
  unfold utf8Char at hb
  by_cases h1 : n < 128
  · rw [if_pos h1] at hb
    simp only [List.mem_singleton] at hb
    omega
  · rw [if_neg h1] at hb
    by_cases h2 : n < 2048
    · rw [if_pos h2] at hb
      simp only [List.mem_cons, List.not_mem_nil, or_false] at hb
      rcases hb with rfl | rfl <;> omega
    · rw [if_neg h2] at hb
      by_cases h3 : n < 65536
      · rw [if_pos h3] at hb
        simp only [List.mem_cons, List.not_mem_nil, or_false] at hb
        rcases hb with rfl | rfl | rfl <;> omega
      · rw [if_neg h3] at hb
        simp only [List.mem_cons, List.not_mem_nil, or_false] at hb
        rcases hb with rfl | rfl | rfl | rfl <;> omega

theorem utf8Encode_bytes_lt (cs : List Char) : ∀ b ∈ utf8Encode cs, b < 256 := by
  intro b hb
  unfold utf8Encode at hb
  rcases List.mem_flatMap.mp hb with ⟨c, _, hbc⟩
  exact utf8Char_bytes_lt c.toNat (charToNat_lt c) b hbc

/-- Base64 value of an alphabet char (inverse of `b64Char`). -/
def b64Inv (c : Char) : Nat :=
  if 65 ≤ c.toNat ∧ c.toNat ≤ 90 then c.toNat - 65
  else if 97 ≤ c.toNat ∧ c.toNat ≤ 122 then c.toNat - 97 + 26
  else if 48 ≤ c.toNat ∧ c.toNat ≤ 57 then c.toNat - 48 + 52
  else if c = '+' then 62 else 63

theorem b64Inv_b64Char : ∀ n, n < 64 → b64Inv (b64Char n) = n := by decide

theorem b64Char_ne_eq : ∀ n, n < 64 → ¬ b64Char n = '=' := by decide

/-- Base64 decoder (standard alphabet, `=` padding). -/
def b64Decode : List Char → Option (List Nat)
  | [] => some []
  | c1 :: c2 :: c3 :: c4 :: rest =>
    if c3 = '=' ∧ c4 = '=' ∧ rest = [] then
      some [b64Inv c1 * 4 + b64Inv c2 / 16]
    else if c4 = '=' ∧ rest = [] then
      some [b64Inv c1 * 4 + b64Inv c2 / 16, b64Inv c2 % 16 * 16 + b64Inv c3 / 4]
    else
      (b64Decode rest).map (fun tl =>
        (b64Inv c1 * 4 + b64Inv c2 / 16) ::
        (b64Inv c2 % 16 * 16 + b64Inv c3 / 4) ::
        (b64Inv c3 % 4 * 64 + b64Inv c4) :: tl)
  | _ => none

theorem b64Decode_b64EncodeBytes_aux (n : Nat) :
    ∀ (bs : List Nat), bs.length ≤ n → (∀ b ∈ bs, b < 256) →
      b64Decode (b64EncodeBytes bs) = some bs := by
  induction n with
  | zero =>
    intro bs hlen _
    cases bs with
    | nil => rfl
    | cons a t => exact absurd hlen (by simp)
  | succ n ih =>
    intro bs hlen hb
    cases bs with
    | nil => rfl
    | cons a t =>
      have ha : a < 256 := hb a (List.mem_cons_self _ _)
      cases t with
      | nil =>
        show b64Decode [b64Char (a / 4), b64Char (a % 4 * 16), '=', '='] = some [a]
        simp only [b64Decode]
        rw [if_pos (by exact ⟨trivial, trivial, trivial⟩),
          b64Inv_b64Char _ (by omega), b64Inv_b64Char _ (by omega)]
        have h1 : a / 4 * 4 + a % 4 * 16 / 16 = a := by omega
        rw [h1]
      | cons b t1 =>
        have hbb : b < 256 := hb b (by simp)
        cases t1 with
        | nil =>
          show b64Decode [b64Char (a / 4), b64Char (a % 4 * 16 + b / 16),
            b64Char (b % 16 * 4), '='] = some [a, b]
          simp only [b64Decode]
          rw [if_neg (by
              intro hc
              exact b64Char_ne_eq (b % 16 * 4) (by omega) hc.1),
            if_pos (by exact ⟨trivial, trivial⟩),
            b64Inv_b64Char _ (by omega), b64Inv_b64Char _ (by omega),
            b64Inv_b64Char _ (by omega)]
          have h1 : a / 4 * 4 + (a % 4 * 16 + b / 16) / 16 = a := by omega
          have h2 : (a % 4 * 16 + b / 16) % 16 * 16 + b % 16 * 4 / 4 = b := by omega
          rw [h1, h2]
        | cons c t2 =>
          have hcc : c < 256 := hb c (by simp)
          show b64Decode (b64Char (a / 4) :: b64Char (a % 4 * 16 + b / 16) ::
            b64Char (b % 16 * 4 + c / 64) :: b64Char (c % 64) ::
            b64EncodeBytes t2) = some (a :: b :: c :: t2)
          simp only [b64Decode]
          rw [if_neg (by
              intro hc
              exact b64Char_ne_eq (b % 16 * 4 + c / 64) (by omega) hc.1),
            if_neg (by
              intro hc
              exact b64Char_ne_eq (c % 64) (by omega) hc.1)]
          rw [ih t2 (by simp at hlen; omega)
            (fun x hx => hb x (by simp [hx]))]
          rw [b64Inv_b64Char _ (by omega), b64Inv_b64Char _ (by omega),
            b64Inv_b64Char _ (by omega), b64Inv_b64Char _ (by omega)]
          have h1 : a / 4 * 4 + (a % 4 * 16 + b / 16) / 16 = a := by omega
          have h2 : (a % 4 * 16 + b / 16) % 16 * 16 + (b % 16 * 4 + c / 64) / 4 = b := by omega
          have h3 : (b % 16 * 4 + c / 64) % 4 * 64 + c % 64 = c := by omega
          rw [h1, h2, h3]
          rfl

theorem b64Decode_b64EncodeBytes (bs : List Nat) (hb : ∀ b ∈ bs, b < 256) :
    b64Decode (b64EncodeBytes bs) = some bs :=
  b64Decode_b64EncodeBytes_aux bs.length bs (Nat.le_refl _) hb

theorem b64EncodeBytes_inj (bs1 bs2 : List Nat)
    (h1 : ∀ b ∈ bs1, b < 256) (h2 : ∀ b ∈ bs2, b < 256)
    (h : b64EncodeBytes bs1 = b64EncodeBytes bs2) : bs1 = bs2 := by
  have hd := b64Decode_b64EncodeBytes bs1 h1
  rw [h, b64Decode_b64EncodeBytes bs2 h2] at hd
  exact (Option.some.inj hd).symm

theorem asString_inj (l1 l2 : List Char) (h : l1.asString = l2.asString) : l1 = l2 :=
  congrArg String.data h

theorem flagMarker_inj (a1 a2 : List String) (r1 r2 : List Int)
    (h : flagMarker a1 r1 = flagMarker a2 r2) : a1 = a2 ∧ r1 = r2 := by
  unfold flagMarker at h
  have h1 : b64EncodeBytes (utf8Encode (argsRcsRepr a1 r1)) =
      b64EncodeBytes (utf8Encode (argsRcsRepr a2 r2)) := asString_inj _ _ h
  have h2 : utf8Encode (argsRcsRepr a1 r1) = utf8Encode (argsRcsRepr a2 r2) :=
    b64EncodeBytes_inj _ _ (utf8Encode_bytes_lt _) (utf8Encode_bytes_lt _) h1
  exact argsRcsRepr_inj a1 a2 r1 r2 (utf8Encode_inj _ _ h2)

/-- C9: `make_flag_path` is a pure function of the package name, package
version, step path, arguments and accepted return codes: for two steps
under the same package and version with the same step path, the flag
paths coincide exactly when the arguments and return-code lists
coincide — identical inputs always produce the same path, and steps
differing only in arguments or return codes never collide. -/
theorem make_flag_path_pure (cfg : ConfigData) (ec : EnvConfig) (root_mount : String)
    (s1 s2 : Step) (hpath : s1.path = s2.path) :
    make_flag_path s1 cfg ec root_mount = make_flag_path s2 cfg ec root_mount ↔
      (s1.arguments = s2.arguments ∧ s1.returncodes = s2.returncodes) := by
  constructor
  · intro h
    unfold make_flag_path at h
    rw [← hpath] at h
    have hd := congrArg String.data h
    simp only [String.data_append, List.append_assoc] at hd
    have hm : (flagMarker s1.arguments s1.returncodes).data =
        (flagMarker s2.arguments s2.returncodes).data :=
      List.append_cancel_left (List.append_cancel_left (List.append_cancel_left
        (List.append_cancel_left (List.append_cancel_left (List.append_cancel_left
          (List.append_cancel_left (List.append_cancel_left hd)))))))
    exact flagMarker_inj _ _ _ _ (stringDataInj _ _ hm)
  · intro ⟨ha, hr⟩
    unfold make_flag_path
    rw [hpath, ha, hr]

/-- C9 witness: two concrete steps sharing a path, one with an extra
argument — the flag paths are equal exactly when the argument and
return-code lists agree. -/
theorem make_flag_path_pure_witness :
    make_flag_path (mkStep "a.sh") ⟨"p", "1"⟩ defaultEnvConfig "" =
        make_flag_path { mkStep "a.sh" with arguments := ["x"] } ⟨"p", "1"⟩
          defaultEnvConfig "" ↔
      ((mkStep "a.sh").arguments =
          ({ mkStep "a.sh" with arguments := ["x"] } : Step).arguments ∧
        (mkStep "a.sh").returncodes =
          ({ mkStep "a.sh" with arguments := ["x"] } : Step).returncodes) :=
  make_flag_path_pure ⟨"p", "1"⟩ defaultEnvConfig "" (mkStep "a.sh")
    { mkStep "a.sh" with arguments := ["x"] } rfl

end Skyhook
